import Mathlib

/-!
Verification of the flash-map (FMAP) locator/decoder and the region-tree
builder of the futility-rs repository.

The byte source is modelled as a `List Nat` (each entry one byte).  Rust
`String`s are modelled by their UTF-8 byte sequences (`List Nat`); Rust's
`Ord` on `String` is byte-lexicographic, which coincides with the
lexicographic order on the byte lists.  Machine integers (`u8/u16/u32/u64`,
`usize`) are modelled as `Nat`; every value read from the wire is bounded by
construction (fixed little-endian width), so no wrap-around can occur in the
source operations modelled here.
-/

namespace Futility

/-! ## Constants from src/fmap.rs -/

/-- Byte values of the 8-byte signature `b"__FMAP__"`. -/
def sigBytes : List Nat := [95, 95, 70, 77, 65, 80, 95, 95]

/-- `SEARCH_STRIDE` from the source. -/
def SEARCH_STRIDE : Nat := 4

/-- `NAME_LEN` from the source. -/
def NAME_LEN : Nat := 32

/-- `HEADER_SIZE = SIGNATURE.len() + 1 + 1 + 8 + 4 + NAME_LEN + 2 = 56`. -/
def HEADER_SIZE : Nat := 8 + 1 + 1 + 8 + 4 + NAME_LEN + 2

/-- `VERSION_MAJOR` from the source. -/
def VERSION_MAJOR : Nat := 1

/-! ## Data model from src/fmap.rs

`FMapFlags` is a 16-bit bitset with known bits `Static = 1`,
`Compressed = 2`, `RO = 4`, `Preserve = 8`; it is modelled as the raw
`Nat` bitmask value.  -/

/-- Decoded region (`FMapArea` in the source); `name` holds the UTF-8 bytes
of the Rust `String`, `flags` the bitmask value of `FMapFlags`. -/
structure FMapArea where
  name : List Nat
  offset : Nat
  size : Nat
  flags : Nat
  deriving Repr, DecidableEq

/-- Decoded descriptor (`FMap` in the source). -/
structure FMap where
  name : List Nat
  version_major : Nat
  version_minor : Nat
  base : Nat
  size : Nat
  areas : List FMapArea
  deriving Repr, DecidableEq

/-- Error type mirroring `FMapError`.  The `ioError` constructor models the
`IOError` variant wrapping a `std::io::Error`; its argument is the message of
the wrapped I/O error. -/
inductive FMapError where
  | notFound
  | corruptedHeader
  | incorrectVersion (major minor : Nat)
  | ioError (msg : String)
  deriving Repr, DecidableEq

/-- Message of the I/O error produced by `find_fmap` for inputs not larger
than the header ("Not enough data to fit FMap"). -/
def tooSmallMsg : String := "Not enough data to fit FMap"

/-- Message of the I/O error produced by `read_exact` hitting end of data. -/
def eofMsg : String := "failed to fill whole buffer"

/-! ## Decoding (src/fmap.rs, `From` impls and `parse_fmap`) -/

/-- Byte at index `i` of the source (indices past the end read 0; such reads
never happen on the paths modelled: every read is length-checked first,
mirroring `read_exact`). -/
def getByte (bs : List Nat) (i : Nat) : Nat := bs.getD i 0

/-- Little-endian read of `n` bytes starting at `off`. -/
def readLE (bs : List Nat) (off : Nat) : Nat → Nat
  | 0 => 0
  | n + 1 => getByte bs off + 256 * readLE bs (off + 1) n

/-- Name decoding from the raw fixed-length field: the bytes up to the first
NUL when one is present (`CStr::from_bytes_until_nul`), the whole field
otherwise.  The source further runs the bytes through `to_str().unwrap_or("")`;
since strings are modelled as their byte sequences, the UTF-8 validity check is
not modelled (all claims below concern valid names). -/
def nameOfRaw (bs : List Nat) : List Nat :=
  if 0 ∈ bs then bs.takeWhile (fun b => b != 0) else bs

/-- Flag decoding: `FMapFlags::from_bits(raw).unwrap_or(FMapFlags::empty())`.
`from_bits` yields `None` as soon as any bit outside the four known bits
(mask `0xF`) is set, so for a raw 16-bit value `f` the decoded set is `f`
when `f < 16` and the empty set otherwise. -/
def flagsOfRaw (f : Nat) : Nat :=
  if f < 16 then f else 0

/-- The `From<FMapAreaRaw> for FMapArea` conversion, taking the already-split
raw fields. -/
def areaOfRaw (off sz : Nat) (nameRaw : List Nat) (flags : Nat) : FMapArea :=
  { name := nameOfRaw nameRaw, offset := off, size := sz,
    flags := flagsOfRaw flags }

/-- Size in bytes of one on-disk area record: 4 + 4 + 32 + 2. -/
def AREA_SIZE : Nat := 42

/-- Reads `n` consecutive area records from the front of `bs`
(the loop at the end of `parse_fmap`); a short read surfaces as the
`read_exact` I/O error. -/
def parseAreas (bs : List Nat) : Nat → Except FMapError (List FMapArea)
  | 0 => .ok []
  | n + 1 =>
    if bs.length < AREA_SIZE then .error (.ioError eofMsg)
    else
      match parseAreas (bs.drop AREA_SIZE) n with
      | .ok as => .ok (areaOfRaw (readLE bs 0 4) (readLE bs 4 4)
          ((bs.drop 8).take 32) (readLE bs 40 2) :: as)
      | .error e => .error e

/-- `FMap::parse_fmap` reading from the front of `bs`: header layout is
signature 0..8, major 8, minor 9, base 10..18 (LE), size 18..22 (LE),
name 22..54, nareas 54..56 (LE); then `nareas` area records.  `parse_fmap`
does not re-check the signature; it fails with `IncorrectVersion` when the
major version byte differs from 1. -/
def parseFmap (bs : List Nat) : Except FMapError FMap :=
  if bs.length < HEADER_SIZE then .error (.ioError eofMsg)
  else if getByte bs 8 ≠ VERSION_MAJOR then
    .error (.incorrectVersion (getByte bs 8) (getByte bs 9))
  else
    match parseAreas (bs.drop HEADER_SIZE) (readLE bs 54 2) with
    | .ok as =>
      .ok { name := nameOfRaw ((bs.drop 22).take 32),
            version_major := getByte bs 8, version_minor := getByte bs 9,
            base := readLE bs 10 8, size := readLE bs 18 4, areas := as }
    | .error e => .error e

/-! ## Signature search (src/fmap.rs, `find_fmap`) -/

/-- `FMap::is_fmap` at offset `off`: the 8 bytes there equal the signature. -/
def sigAtP (data : List Nat) (off : Nat) : Prop :=
  (data.drop off).take 8 = sigBytes

instance (data : List Nat) (off : Nat) : Decidable (sigAtP data off) := by
  unfold sigAtP; infer_instance

/-- Fuel-driven floor of the base-2 logarithm (fuel `n` suffices for input
`n`).  Models `((limit - 1) as f64).log2()` truncated to an integer: the
`f64` computation is exact for the sizes at hand (below `2^53`), and Rust's
saturating float-to-int cast sends `log2(0) = -inf` to 0. -/
def lgAux : Nat → Nat → Nat
  | 0, _ => 0
  | fuel + 1, n => if n ≤ 1 then 0 else lgAux fuel (n / 2) + 1

/-- Floor of the base-2 logarithm (0 at 0). -/
def lg (n : Nat) : Nat := lgAux n n

/-- The initial alignment `2usize.pow(align_log as u32)` of the search. -/
def alignStart (limit : Nat) : Nat := 2 ^ lg (limit - 1)

/-- The descending sequence of alignments tried by the outer `while` loop:
`a, a/2, a/4, ...` while the value is at least `SEARCH_STRIDE`. -/
def alignSeqAux : Nat → Nat → List Nat
  | 0, _ => []
  | fuel + 1, a => if a < SEARCH_STRIDE then [] else a :: alignSeqAux fuel (a / 2)

/-- Alignment sequence starting from `a` (fuel `a` suffices since the value
at least halves each step). -/
def alignSeq (a : Nat) : List Nat := alignSeqAux a a

/-- Candidate offsets scanned at one alignment: `a, 2a, 3a, ...` up to
`limit` inclusive. -/
def candidates (a limit : Nat) : List Nat :=
  (List.range (limit / a)).map (fun t => (t + 1) * a)

/-- All candidate offsets in the exact order the nested `while` loops visit
them. -/
def allCands (limit : Nat) : List Nat :=
  (alignSeq (alignStart limit)).flatMap (fun a => candidates a limit)

/-- `FMap::find_fmap`: too-small check, quick signature check at offset 0,
then the alignment-descending scan; the first candidate offset whose 8 bytes
match the signature is decoded (its parse result is returned as-is). -/
def findFmap (data : List Nat) : Except FMapError (FMap × Nat) :=
  if data.length ≤ HEADER_SIZE then .error (.ioError tooSmallMsg)
  else if sigAtP data 0 then
    match parseFmap data with
    | .ok m => .ok (m, 0)
    | .error e => .error e
  else
    match (allCands (data.length - HEADER_SIZE)).find?
        (fun off => decide (sigAtP data off)) with
    | some off =>
      match parseFmap (data.drop off) with
      | .ok m => .ok (m, off)
      | .error e => .error e
    | none => .error .notFound

/-! ## Encoding (the wire format of §6, used for the round-trip claim) -/

/-- Little-endian encoding of `v` on `n` bytes. -/
def toLE (v : Nat) : Nat → List Nat
  | 0 => []
  | n + 1 => v % 256 :: toLE (v / 256) n

/-- NUL-padding of a name to the fixed 32-byte field. -/
def pad32 (nm : List Nat) : List Nat := nm ++ List.replicate (32 - nm.length) 0

/-- Wire form of one area record. -/
def encodeArea (a : FMapArea) : List Nat :=
  toLE a.offset 4 ++ toLE a.size 4 ++ pad32 a.name ++ toLE a.flags 2

/-- Wire form of a whole descriptor: header followed by the area records. -/
def encodeFMap (m : FMap) : List Nat :=
  sigBytes ++ [m.version_major] ++ [m.version_minor] ++ toLE m.base 8 ++
    toLE m.size 4 ++ pad32 m.name ++ toLE m.areas.length 2 ++
    m.areas.flatMap encodeArea

/-- A name fits the fixed field and contains no NUL byte. -/
def NameOk (nm : List Nat) : Prop := nm.length ≤ 32 ∧ 0 ∉ nm

/-- Field bounds of a well-formed area record. -/
def AreaOk (a : FMapArea) : Prop :=
  a.offset < 256 ^ 4 ∧ a.size < 256 ^ 4 ∧ NameOk a.name ∧ a.flags < 16

/-- A well-formed version-1 descriptor: every field fits its wire width, the
names round-trip, and the flags use only recognized bits. -/
def WF (m : FMap) : Prop :=
  m.version_major = VERSION_MAJOR ∧ m.version_minor < 256 ∧
    m.base < 256 ^ 8 ∧ m.size < 256 ^ 4 ∧ NameOk m.name ∧
    m.areas.length < 256 ^ 2 ∧ ∀ a ∈ m.areas, AreaOk a

instance : DecidablePred NameOk := fun nm => by unfold NameOk; infer_instance

instance : DecidablePred AreaOk := fun a => by unfold AreaOk; infer_instance

instance (m : FMap) : Decidable (WF m) := by unfold WF; infer_instance

/-- Concrete well-formed descriptor used as the round-trip witness. -/
def c5m : FMap :=
  { name := [101, 120], version_major := 1, version_minor := 0,
    base := 0, size := 1024,
    areas := [{ name := [98], offset := 0, size := 128, flags := 1 }] }

/-- The descriptor value decoded at the signature hit inside `c6wdata` and
`c6data` (empty name, version 1.0, zero base/size, no areas). -/
def c6mm : FMap :=
  { name := [], version_major := 1, version_minor := 0,
    base := 0, size := 0, areas := [] }

/-- Well-formed source of length 64 whose only signature occurrence is at
offset 8 (`limit = 8`). -/
def c6wdata : List Nat :=
  List.replicate 8 0 ++ sigBytes ++ [1, 0] ++ List.replicate 46 0

/-- Source of length 60 (`limit = 4`) whose only signature occurrence is at
offset 4, where a well-formed descriptor is encoded. -/
def c6data : List Nat :=
  List.replicate 4 0 ++ sigBytes ++ [1, 0] ++ List.replicate 46 0

/-- Counterexample to C7 as stated: the "too small" failure is produced as
the very `IOError` variant that also carries genuine read failures — here the
56-byte truncated-area input `c7trunc` fails with the same constructor — so
there is no distinct "too small" error kind distinguishable from a generic
I/O failure. -/
def c7trunc : List Nat :=
  sigBytes ++ [1, 0] ++ List.replicate 44 0 ++ [1, 0] ++ [0]

/-- Witness for C10: a source that starts with the signature and major
version 2 and contains a fully well-formed version-1 descriptor at offset 64. -/
def c10data : List Nat :=
  sigBytes ++ [2, 0] ++ List.replicate 54 0 ++
    sigBytes ++ [1, 0] ++ List.replicate 46 0

/-! ## Region tree builder (src/cmd/dump_fmap.rs)

The source's `Node` carries `Rc<RefCell<..>>` parent/child handles; here a
node is the plain value (name, offset, size, aliases) and the parent/child
relationships of the built forest are expressed as indices into the accepted
list (`parentIdx`, `childIdxs`), exactly as determined by the source's
assignment loop. -/

structure Node where
  name : List Nat
  offset : Nat
  size : Nat
  aliases : List (List Nat)
  deriving Repr, DecidableEq

/-- Default node used for out-of-range index reads (never reached on the
paths modelled; every index is bounds-checked in the proofs). -/
def defNode : Node := { name := [], offset := 0, size := 0, aliases := [] }

/-- `Node::is_duplicate`: same offset and same size. -/
def isDuplicate (a b : Node) : Prop := a.offset = b.offset ∧ a.size = b.size

instance (a b : Node) : Decidable (isDuplicate a b) := by
  unfold isDuplicate; infer_instance

/-- `Node::end`. -/
def nodeEnd (n : Node) : Nat := n.offset + n.size

/-- `Node::overlaps`: the two ranges intersect strictly without either
containing the other. -/
def overlapsN (a b : Node) : Prop :=
  (a.offset < b.offset ∧ b.offset < nodeEnd a ∧ nodeEnd a < nodeEnd b) ∨
    (b.offset < a.offset ∧ a.offset < nodeEnd b ∧ nodeEnd b < nodeEnd a)

instance (a b : Node) : Decidable (overlapsN a b) := by
  unfold overlapsN; infer_instance

/-- `Node::fits_in`: `a`'s interval is fully contained in `b`'s. -/
def fitsIn (a b : Node) : Prop :=
  b.offset ≤ a.offset ∧ nodeEnd a ≤ nodeEnd b

instance (a b : Node) : Decidable (fitsIn a b) := by
  unfold fitsIn; infer_instance

/-- UTF-8 bytes of the synthetic root's name "-entire flash-". -/
def rootName : List Nat := [45, 101, 110, 116, 105, 114, 101, 32, 102, 108, 97, 115, 104, 45]

/-- UTF-8 bytes of the gap placeholder name "[UNUSED]". -/
def unusedName : List Nat := [91, 85, 78, 85, 83, 69, 68, 93]

/-- The synthetic whole-image region pushed after the areas. -/
def rootNode (m : FMap) : Node :=
  { name := rootName, offset := m.base, size := m.size, aliases := [] }

/-- The node built from one decoded area. -/
def areaNode (a : FMapArea) : Node :=
  { name := a.name, offset := a.offset, size := a.size, aliases := [] }

/-- The node list fed to the sort: one node per area, then the synthetic
root. -/
def mkNodes (m : FMap) : List Node :=
  m.areas.map areaNode ++ [rootNode m]

/-- The canonical sort key order: offset ascending, then size descending
(the source uses the key `(offset, usize::MAX - size, name)`), then name
ascending (byte-lexicographic, matching Rust's `Ord` on `String`). -/
def keyLE (a b : Node) : Prop :=
  a.offset < b.offset ∨
    (a.offset = b.offset ∧
      (b.size < a.size ∨ (a.size = b.size ∧ a.name ≤ b.name)))

instance : DecidableRel keyLE := fun a b => by unfold keyLE; infer_instance

/-- The canonical sort (`sort_unstable_by_key`).  The key includes the name,
so two nodes comparing equal are identical records (all aliases are empty at
this point) and the unstable sort's result is the same list an insertion
sort produces. -/
def sortNodes (ns : List Node) : List Node := List.insertionSort keyLE ns

/-- The sorted node list of a descriptor. -/
def sortedNodes (m : FMap) : List Node := sortNodes (mkNodes m)

/-- One step of the dedup/overlap pass: scan the accepted list `ds` for the
candidate `x`.  The first accepted node that is an exact duplicate absorbs
`x`'s name as an alias; otherwise the first overlapping accepted node drops
`x`, bumping the overlap counter (first component, suppressed when overlaps
are ignored) and the logged-overlap counter (second component, the number of
`error!` reports, always bumped); if neither happens `x` is appended at the
end.  Returns the new accepted list and the two counter increments. -/
def insertNode (ign : Bool) (x : Node) : List Node → List Node × Nat × Nat
  | [] => ([x], 0, 0)
  | d :: ds =>
    if isDuplicate x d then
      ({ d with aliases := d.aliases ++ [x.name] } :: ds, 0, 0)
    else if overlapsN x d then
      (d :: ds, if ign then 0 else 1, 1)
    else
      let r := insertNode ign x ds
      (d :: r.1, r.2.1, r.2.2)

/-- Folds `insertNode` over the remaining candidates, accumulating the
accepted list and both counters. -/
def dedupAux (ign : Bool) : List Node → List Node × Nat × Nat → List Node × Nat × Nat
  | [], st => st
  | x :: xs, st =>
    let r := insertNode ign x st.1
    dedupAux ign xs (r.1, st.2.1 + r.2.1, st.2.2 + r.2.2)

/-- The dedup/overlap pass: the first sorted node is accepted unconditionally
(`deduplicated = vec![nodes[0]]`), the rest are scanned in order.  The list
fed to it is never empty (the synthetic root is always present). -/
def dedup (ign : Bool) : List Node → List Node × Nat × Nat
  | [] => ([], 0, 0)
  | h :: t => dedupAux ign t ([h], 0, 0)

/-- Accepted (deduplicated) nodes of a descriptor. -/
def acceptedNodes (m : FMap) (ign : Bool) : List Node :=
  (dedup ign (sortedNodes m)).1

/-- The overlap counter (`overlaps` in the source). -/
def overlapCount (m : FMap) (ign : Bool) : Nat :=
  (dedup ign (sortedNodes m)).2.1

/-- The number of overlap reports logged via `error!` (emitted whether or
not overlaps are ignored). -/
def loggedOverlaps (m : FMap) (ign : Bool) : Nat :=
  (dedup ign (sortedNodes m)).2.2

/-- Node at index `i` of the accepted list. -/
def nd (ds : List Node) (i : Nat) : Node := ds.getD i defNode

/-- The backward scan of the parent-assignment loop: the first index among
`i-1, ..., 0` whose node's interval contains `x`. -/
def scanBack (ds : List Node) (x : Node) (i : Nat) : Option Nat :=
  (List.range i).reverse.find? (fun k => decide (fitsIn x (nd ds k)))

/-- Parent assignment: for node `i`, the source scans indices `i-1, ..., 0`
and takes the first whose interval contains node `i` (nodes at index 0 are
never assigned a parent since the loop starts at 1, which the empty range
reproduces). -/
def parentIdx (ds : List Node) (i : Nat) : Option Nat :=
  scanBack ds (nd ds i) i

/-- Children of node `k` in the built forest, in the order the source pushes
them (ascending index, hence canonical order). -/
def childIdxs (ds : List Node) (k : Nat) : List Nat :=
  (List.range ds.length).filter (fun i => decide (parentIdx ds i = some k))

/-- A materialized gap placeholder node. -/
def unusedNode (off sz : Nat) : Node :=
  { name := unusedName, offset := off, size := sz, aliases := [] }

/-- The per-node gap loop over the children `cs` of a node spanning
`[pOff, pEnd)`: mirrors the source's loop `for i in 0..children.len()`,
including its trailing-gap branch guarded by `i == children.len()` (which is
kept verbatim: that condition can never hold inside the loop, and the
placeholder it would build uses `offset: node_end` and
`size: node_end - child_end`).  Returns the rebuilt children list
(`new_children`) and the gap-counter increment; the counter does not depend
on `showGaps`, only the materialization does. -/
def gapFold (showGaps : Bool) (pOff pEnd : Nat) (cs : List Node) : List Node × Nat :=
  (List.range cs.length).foldl
    (fun acc i =>
      let c := cs.getD i defNode
      let acc1 :=
        if i = 0 then
          if pOff < c.offset then
            ((if showGaps then acc.1 ++ [unusedNode pOff (c.offset - pOff)]
              else acc.1), acc.2 + 1)
          else acc
        else
          if nodeEnd (cs.getD (i - 1) defNode) < c.offset then
            ((if showGaps then acc.1 ++
                [unusedNode (nodeEnd (cs.getD (i - 1) defNode))
                  (c.offset - nodeEnd (cs.getD (i - 1) defNode))]
              else acc.1), acc.2 + 1)
          else acc
      let acc2 := (acc1.1 ++ [c], acc1.2)
      if i = cs.length ∧ nodeEnd c < pEnd then
        ((if showGaps then acc2.1 ++ [unusedNode pEnd (pEnd - nodeEnd c)]
          else acc2.1), acc2.2 + 1)
      else acc2)
    ([], 0)

/-- Gap computation for the node at index `k`: nodes without children are
skipped (`continue`), otherwise the per-node loop runs over its children. -/
def nodeGaps (showGaps : Bool) (ds : List Node) (k : Nat) : List Node × Nat :=
  let cs := (childIdxs ds k).map (nd ds)
  if cs.isEmpty then ([], 0)
  else gapFold showGaps (nd ds k).offset (nodeEnd (nd ds k)) cs

/-- The global gap counter (`gap_count`). -/
def totalGaps (showGaps : Bool) (ds : List Node) : Nat :=
  ((List.range ds.length).map (fun k => (nodeGaps showGaps ds k).2)).sum

/-- Outcome of `dump_human_readable` up to rendering: when the overlap
counter is non-zero the function fails with the message carrying that count
(modelled by the count itself); otherwise it succeeds with the accepted
forest and the gap count. -/
def dumpHumanReadable (m : FMap) (showGaps ign : Bool) :
    Except Nat (List Node × Nat) :=
  if overlapCount m ign ≠ 0 then .error (overlapCount m ign)
  else .ok (acceptedNodes m ign, totalGaps showGaps (acceptedNodes m ign))

/-! ## Order properties of the canonical sort key -/

instance : IsTotal Node keyLE := by
  constructor
  intro a b
  unfold keyLE
  rcases Nat.lt_trichotomy a.offset b.offset with h | h | h
  · exact Or.inl (Or.inl h)
  · rcases Nat.lt_trichotomy a.size b.size with hs | hs | hs
    · exact Or.inr (Or.inr ⟨h.symm, Or.inl hs⟩)
    · rcases le_total a.name b.name with hn | hn
      · exact Or.inl (Or.inr ⟨h, Or.inr ⟨hs, hn⟩⟩)
      · exact Or.inr (Or.inr ⟨h.symm, Or.inr ⟨hs.symm, hn⟩⟩)
    · exact Or.inl (Or.inr ⟨h, Or.inl hs⟩)
  · exact Or.inr (Or.inl h)

instance : IsTrans Node keyLE := by
  constructor
  intro a b c hab hbc
  unfold keyLE at *
  rcases hab with h1 | ⟨he1, h1⟩
  · rcases hbc with h2 | ⟨he2, _⟩
    · exact Or.inl (by omega)
    · exact Or.inl (by omega)
  · rcases hbc with h2 | ⟨he2, h2⟩
    · exact Or.inl (by omega)
    · refine Or.inr ⟨by omega, ?_⟩
      rcases h1 with hs1 | ⟨hq1, hn1⟩
      · rcases h2 with hs2 | ⟨hq2, _⟩
        · exact Or.inl (by omega)
        · exact Or.inl (by omega)
      · rcases h2 with hs2 | ⟨hq2, hn2⟩
        · exact Or.inl (by omega)
        · exact Or.inr ⟨hq1.trans hq2, le_trans hn1 hn2⟩

/-- Descriptor whose only area starts before `base`. -/
def c9bad : FMap :=
  { name := [], version_major := 1, version_minor := 0, base := 16,
    size := 16, areas := [{ name := [65], offset := 0, size := 4, flags := 0 }] }

/-! ## Claim C1: the trailing gap after the last child -/

/-- Descriptor whose root `[0, 256)` has a single child `[0, 128)`, leaving
the trailing range `[128, 256)` uncovered. -/
def c1m : FMap :=
  { name := [], version_major := 1, version_minor := 0, base := 0,
    size := 256, areas := [{ name := [98], offset := 0, size := 128, flags := 0 }] }

/-! ## Compatibility invariant of the dedup pass -/

/-- Two nodes are compatible when they neither duplicate nor partially
overlap each other: they are disjoint or properly nested. -/
def good (a b : Node) : Prop := ¬ isDuplicate a b ∧ ¬ overlapsN a b

/-- Descriptor with two partially overlapping areas `[0,16)` and `[8,24)`. -/
def c2m : FMap :=
  { name := [], version_major := 1, version_minor := 0, base := 0, size := 64,
    areas := [{ name := [97], offset := 0, size := 16, flags := 0 },
      { name := [99], offset := 8, size := 16, flags := 0 }] }

/-- Descriptor containing two same-interval areas "a" and "b". -/
def c4m : FMap :=
  { name := [], version_major := 1, version_minor := 0, base := 0, size := 64,
    areas := [{ name := [97], offset := 0, size := 16, flags := 0 },
      { name := [98], offset := 0, size := 16, flags := 0 }] }

/-- The later duplicate region of `c4m` as a node. -/
def c4r : Node := { name := [98], offset := 0, size := 16, aliases := [] }

/-- The accepted representative of the interval `[0,16)` in `c4m`'s forest,
carrying the duplicate's name as an alias. -/
def c4d : Node := { name := [97], offset := 0, size := 16, aliases := [[98]] }

/-! ## Claim C3: the parent is the nearest preceding container -/

/-- Sort-relevant skeleton of a node (name, offset, size): the dedup pass
may grow aliases but never changes a skeleton. -/
def sk (n : Node) : List Nat × Nat × Nat := (n.name, n.offset, n.size)

/-- Node rebuilt from a skeleton. -/
def skNode (s : List Nat × Nat × Nat) : Node :=
  { name := s.1, offset := s.2.1, size := s.2.2, aliases := [] }

/-- The canonical key order, read off a skeleton. -/
def skKeyLE (s t : List Nat × Nat × Nat) : Prop := keyLE (skNode s) (skNode t)

/-- Descriptor with a zero-size area at the boundary of two adjacent areas:
`C = [0,5)`, `D = [5,20)`, `A = [5,5)` (size 0). -/
def c3m : FMap :=
  { name := [], version_major := 1, version_minor := 0, base := 0, size := 20,
    areas := [{ name := [67], offset := 0, size := 5, flags := 0 },
      { name := [68], offset := 5, size := 15, flags := 0 },
      { name := [65], offset := 5, size := 0, flags := 0 }] }

/-! ## Theorems -/

/-! ## Little-endian and slicing lemmas -/

theorem readLE_shift (x : Nat) (l : List Nat) (off : Nat) :
    ∀ n, readLE (x :: l) (off + 1) n = readLE l off n := by
  intro n
  induction n generalizing off with
  | zero => rfl
  | succ n ih =>
    simp only [readLE, getByte, List.getD_cons_succ]
    rw [show off + 1 + 1 = (off + 1) + 1 from rfl, ih (off + 1)]

theorem readLE_append (xs ys : List Nat) (off n : Nat) :
    readLE (xs ++ ys) (xs.length + off) n = readLE ys off n := by
  induction xs with
  | nil => simp
  | cons x xs ih =>
    have h1 : (x :: xs) ++ ys = x :: (xs ++ ys) := rfl
    have h2 : (x :: xs).length + off = (xs.length + off) + 1 := by
      simp [List.length_cons]; omega
    rw [h1, h2, readLE_shift, ih]

theorem readLE_skip (A B : List Nat) (k n : Nat) (h : A.length = k) :
    readLE (A ++ B) k n = readLE B 0 n := by
  subst h
  simpa using readLE_append A B 0 n

theorem getByte_skip (A B : List Nat) (k : Nat) (h : A.length = k) :
    getByte (A ++ B) k = getByte B 0 := by
  have h1 := readLE_skip A B k 1 h
  simpa [readLE] using h1

theorem drop_skip (A B : List Nat) (k : Nat) (h : A.length = k) :
    (A ++ B).drop k = B := by
  subst h; exact List.drop_left A B

theorem take_all (A B : List Nat) (k : Nat) (h : A.length = k) :
    (A ++ B).take k = A := by
  subst h; exact List.take_left A B

theorem readLE_toLE (n : Nat) :
    ∀ v rest, v < 256 ^ n → readLE (toLE v n ++ rest) 0 n = v := by
  induction n with
  | zero => intro v rest hv; interval_cases v; rfl
  | succ n ih =>
    intro v rest hv
    have hd : toLE v (n + 1) ++ rest = v % 256 :: (toLE (v / 256) n ++ rest) := by
      simp [toLE]
    rw [hd]
    simp only [readLE, getByte, List.getD_cons_zero]
    rw [show (0 : Nat) + 1 = 0 + 1 from rfl, readLE_shift]
    rw [ih (v / 256) rest (by rw [pow_succ] at hv; omega)]
    omega

theorem length_toLE (v n : Nat) : (toLE v n).length = n := by
  induction n generalizing v with
  | zero => rfl
  | succ n ih => simp [toLE, ih]

theorem length_pad32 (nm : List Nat) (h : nm.length ≤ 32) :
    (pad32 nm).length = 32 := by
  simp [pad32]; omega

theorem takeWhile_ne_zero_self (nm : List Nat) (h : 0 ∉ nm) :
    nm.takeWhile (fun b => b != 0) = nm := by
  induction nm with
  | nil => rfl
  | cons x xs ih =>
    have hx : (x != 0) = true := by
      simp only [ne_eq, bne_iff_ne]
      intro hx0; exact h (hx0 ▸ List.mem_cons_self x xs)
    simp only [List.takeWhile_cons, hx, if_true]
    rw [ih (fun hm => h (List.mem_cons_of_mem x hm))]

theorem nameOfRaw_pad32 (nm : List Nat) (h : NameOk nm) :
    nameOfRaw (pad32 nm) = nm := by
  obtain ⟨hlen, hnul⟩ := h
  rcases Nat.eq_or_lt_of_le hlen with heq | hlt
  · have : pad32 nm = nm := by simp [pad32, heq]
    rw [this]
    unfold nameOfRaw
    rw [if_neg hnul]
  · have hk : 32 - nm.length = (32 - nm.length - 1) + 1 := by omega
    unfold nameOfRaw
    have hmem : 0 ∈ pad32 nm := by
      unfold pad32
      refine List.mem_append_right _ ?_
      rw [hk]
      exact List.mem_replicate.mpr ⟨Nat.succ_ne_zero _, rfl⟩
    rw [if_pos hmem]
    unfold pad32
    rw [List.takeWhile_append]
    rw [takeWhile_ne_zero_self nm hnul]
    rw [if_pos rfl, hk]
    simp [List.replicate_succ]

/-! ## Round-trip: parsing an encoded descriptor -/

theorem parseAreas_encode (rest : List Nat) :
    ∀ as : List FMapArea, (∀ a ∈ as, AreaOk a) →
      parseAreas (as.flatMap encodeArea ++ rest) as.length = .ok as := by
  intro as
  induction as generalizing rest with
  | nil => intro _; rfl
  | cons a as ih =>
    intro hok
    obtain ⟨hoff, hsz, hnm, hfl⟩ := hok a (List.mem_cons_self a as)
    have hbytes : (a :: as).flatMap encodeArea ++ rest =
        encodeArea a ++ (as.flatMap encodeArea ++ rest) := by
      simp [List.flatMap_cons]
    have hlenA : (encodeArea a).length = 42 := by
      simp [encodeArea, length_toLE, length_pad32 a.name hnm.1]
    rw [hbytes]
    show parseAreas _ (as.length + 1) = _
    unfold parseAreas
    rw [if_neg (by simp only [List.length_append, hlenA, AREA_SIZE]; omega)]
    have e1 : encodeArea a ++ (as.flatMap encodeArea ++ rest) =
        toLE a.offset 4 ++ (toLE a.size 4 ++ (pad32 a.name ++ (toLE a.flags 2 ++
          (as.flatMap encodeArea ++ rest)))) := by
      simp [encodeArea]
    have hoffv : readLE (encodeArea a ++ (as.flatMap encodeArea ++ rest)) 0 4 =
        a.offset := by
      rw [e1]
      exact readLE_toLE 4 a.offset _ hoff
    have hszv : readLE (encodeArea a ++ (as.flatMap encodeArea ++ rest)) 4 4 =
        a.size := by
      rw [e1, readLE_skip (toLE a.offset 4) _ 4 4 (length_toLE _ _)]
      exact readLE_toLE 4 a.size _ hsz
    have hnmv : ((encodeArea a ++ (as.flatMap encodeArea ++ rest)).drop 8).take 32
        = pad32 a.name := by
      have e3 : encodeArea a ++ (as.flatMap encodeArea ++ rest) =
          (toLE a.offset 4 ++ toLE a.size 4) ++ (pad32 a.name ++
            (toLE a.flags 2 ++ (as.flatMap encodeArea ++ rest))) := by
        simp [encodeArea]
      rw [e3, drop_skip _ _ 8 (by simp [length_toLE])]
      exact take_all _ _ 32 (length_pad32 a.name hnm.1)
    have hflv : readLE (encodeArea a ++ (as.flatMap encodeArea ++ rest)) 40 2 =
        a.flags := by
      have e4 : encodeArea a ++ (as.flatMap encodeArea ++ rest) =
          (toLE a.offset 4 ++ toLE a.size 4 ++ pad32 a.name) ++
            (toLE a.flags 2 ++ (as.flatMap encodeArea ++ rest)) := by
        simp [encodeArea]
      rw [e4, readLE_skip _ _ 40 2
        (by simp [length_toLE, length_pad32 a.name hnm.1])]
      exact readLE_toLE 2 a.flags _ (Nat.lt_of_lt_of_le hfl (by norm_num))
    have hdropv : (encodeArea a ++ (as.flatMap encodeArea ++ rest)).drop AREA_SIZE
        = as.flatMap encodeArea ++ rest := drop_skip _ _ 42 hlenA
    rw [hoffv, hszv, hnmv, hflv, hdropv]
    rw [ih rest (fun a ha => hok a (List.mem_cons_of_mem _ ha))]
    have harea : areaOfRaw a.offset a.size (pad32 a.name) a.flags = a := by
      unfold areaOfRaw
      rw [nameOfRaw_pad32 a.name hnm]
      unfold flagsOfRaw
      rw [if_pos hfl]
    rw [harea]

/-- Claim C5: for every byte source longer than the header whose prefix is
the encoding of a well-formed version-1 descriptor `m` (signature at offset
0 included), `find_fmap` returns hit offset 0 and decodes exactly `m`:
encode followed by decode is the identity on name, version, base, size and
areas. -/
theorem c5_roundtrip (m : FMap) (rest : List Nat) (hwf : WF m)
    (hlen : HEADER_SIZE < (encodeFMap m ++ rest).length) :
    findFmap (encodeFMap m ++ rest) = .ok (m, 0) := by
  obtain ⟨hmaj, hmin, hbase, hsize, hname, hcnt, hareas⟩ := hwf
  have esig : encodeFMap m ++ rest = sigBytes ++ ([m.version_major] ++
      ([m.version_minor] ++ (toLE m.base 8 ++ (toLE m.size 4 ++ (pad32 m.name ++
        (toLE m.areas.length 2 ++ (m.areas.flatMap encodeArea ++ rest))))))) := by
    simp [encodeFMap]
  have e9 : encodeFMap m ++ rest = (sigBytes ++ [m.version_major]) ++
      ([m.version_minor] ++ (toLE m.base 8 ++ (toLE m.size 4 ++ (pad32 m.name ++
        (toLE m.areas.length 2 ++ (m.areas.flatMap encodeArea ++ rest)))))) := by
    simp [encodeFMap]
  have e10 : encodeFMap m ++ rest =
      (sigBytes ++ [m.version_major] ++ [m.version_minor]) ++
      (toLE m.base 8 ++ (toLE m.size 4 ++ (pad32 m.name ++
        (toLE m.areas.length 2 ++ (m.areas.flatMap encodeArea ++ rest))))) := by
    simp [encodeFMap]
  have e18 : encodeFMap m ++ rest =
      (sigBytes ++ [m.version_major] ++ [m.version_minor] ++ toLE m.base 8) ++
      (toLE m.size 4 ++ (pad32 m.name ++
        (toLE m.areas.length 2 ++ (m.areas.flatMap encodeArea ++ rest)))) := by
    simp [encodeFMap]
  have e22 : encodeFMap m ++ rest =
      (sigBytes ++ [m.version_major] ++ [m.version_minor] ++ toLE m.base 8 ++
        toLE m.size 4) ++
      (pad32 m.name ++ (toLE m.areas.length 2 ++
        (m.areas.flatMap encodeArea ++ rest))) := by
    simp [encodeFMap]
  have e54 : encodeFMap m ++ rest =
      (sigBytes ++ [m.version_major] ++ [m.version_minor] ++ toLE m.base 8 ++
        toLE m.size 4 ++ pad32 m.name) ++
      (toLE m.areas.length 2 ++ (m.areas.flatMap encodeArea ++ rest)) := by
    simp [encodeFMap]
  have e56 : encodeFMap m ++ rest =
      (sigBytes ++ [m.version_major] ++ [m.version_minor] ++ toLE m.base 8 ++
        toLE m.size 4 ++ pad32 m.name ++ toLE m.areas.length 2) ++
      (m.areas.flatMap encodeArea ++ rest) := by
    simp [encodeFMap]
  have hsig : sigAtP (encodeFMap m ++ rest) 0 := by
    unfold sigAtP
    rw [List.drop_zero, esig]
    exact take_all _ _ 8 rfl
  have hvmaj : getByte (encodeFMap m ++ rest) 8 = m.version_major := by
    rw [esig, getByte_skip sigBytes _ 8 rfl]
    rfl
  have hvmin : getByte (encodeFMap m ++ rest) 9 = m.version_minor := by
    rw [e9, getByte_skip (sigBytes ++ [m.version_major]) _ 9
      (by simp [sigBytes])]
    rfl
  have hbasev : readLE (encodeFMap m ++ rest) 10 8 = m.base := by
    rw [e10, readLE_skip _ _ 10 8 (by simp [sigBytes])]
    exact readLE_toLE 8 m.base _ hbase
  have hsizev : readLE (encodeFMap m ++ rest) 18 4 = m.size := by
    rw [e18, readLE_skip _ _ 18 4 (by simp [sigBytes, length_toLE])]
    exact readLE_toLE 4 m.size _ hsize
  have hnamev : ((encodeFMap m ++ rest).drop 22).take 32 = pad32 m.name := by
    rw [e22, drop_skip _ _ 22 (by simp [sigBytes, length_toLE])]
    exact take_all _ _ 32 (length_pad32 m.name hname.1)
  have hcntv : readLE (encodeFMap m ++ rest) 54 2 = m.areas.length := by
    rw [e54, readLE_skip _ _ 54 2
      (by simp [sigBytes, length_toLE, length_pad32 m.name hname.1])]
    exact readLE_toLE 2 m.areas.length _ hcnt
  have hdropv : (encodeFMap m ++ rest).drop HEADER_SIZE =
      m.areas.flatMap encodeArea ++ rest := by
    rw [e56]
    exact drop_skip _ _ 56
      (by simp [sigBytes, length_toLE, length_pad32 m.name hname.1])
  have hparse : parseFmap (encodeFMap m ++ rest) = .ok m := by
    unfold parseFmap
    rw [if_neg (by omega)]
    rw [hdropv, hcntv, parseAreas_encode rest m.areas hareas]
    rw [hnamev, nameOfRaw_pad32 m.name hname, hvmin, hbasev, hsizev]
    rw [hvmaj, hmaj, if_neg (by simp)]
    rw [← hmaj]
  unfold findFmap
  rw [if_neg (by omega), if_pos hsig, hparse]

/-- Witness for C5 at a concrete one-area descriptor. -/
theorem c5_witness :
    WF c5m ∧ HEADER_SIZE < (encodeFMap c5m ++ []).length ∧
      findFmap (encodeFMap c5m ++ []) = .ok (c5m, 0) :=
  ⟨by decide, by decide, c5_roundtrip c5m [] (by decide) (by decide)⟩

/-! ## Alignment-scan lemmas for claim C6 -/

theorem lgAux_ge_one : ∀ fuel n, 2 ≤ n → n ≤ fuel → 1 ≤ lgAux fuel n := by
  intro fuel
  induction fuel with
  | zero => intro n h2 h0; omega
  | succ fuel _ =>
    intro n h2 _
    unfold lgAux
    rw [if_neg (by omega)]
    omega

theorem lgAux_ge_two : ∀ fuel n, 4 ≤ n → n ≤ fuel → 2 ≤ lgAux fuel n := by
  intro fuel
  induction fuel with
  | zero => intro n h4 h0; omega
  | succ fuel _ =>
    intro n h4 hle
    unfold lgAux
    rw [if_neg (by omega)]
    have h1 : 1 ≤ lgAux fuel (n / 2) := lgAux_ge_one fuel (n / 2) (by omega) (by omega)
    omega

theorem lg_ge_two (n : Nat) (h : 4 ≤ n) : 2 ≤ lg n :=
  lgAux_ge_two n n h (Nat.le_refl n)

theorem mem4_alignSeqAux : ∀ j, 2 ≤ j → ∀ fuel, 2 ^ j ≤ fuel →
    4 ∈ alignSeqAux fuel (2 ^ j) := by
  intro j hj
  induction j with
  | zero => omega
  | succ j ih =>
    intro fuel hfuel
    rcases Nat.lt_or_ge fuel 1 with hf | hf
    · exfalso
      have : (1 : Nat) ≤ 2 ^ (j + 1) := Nat.one_le_two_pow
      omega
    obtain ⟨f, rfl⟩ : ∃ f, fuel = f + 1 := ⟨fuel - 1, by omega⟩
    unfold alignSeqAux
    rcases Nat.lt_or_ge j 2 with hj2 | hj2
    · have hj1 : j = 1 := by omega
      subst hj1
      rw [if_neg (by norm_num [SEARCH_STRIDE])]
      exact List.mem_cons_self 4 _
    · have hpow : (4 : Nat) ≤ 2 ^ (j + 1) := by
        calc (4 : Nat) = 2 ^ 2 := by norm_num
        _ ≤ 2 ^ (j + 1) := Nat.pow_le_pow_right (by norm_num) (by omega)
      rw [if_neg (by simp [SEARCH_STRIDE]; omega)]
      refine List.mem_cons_of_mem _ ?_
      have hdiv : 2 ^ (j + 1) / 2 = 2 ^ j := by
        rw [pow_succ]
        exact Nat.mul_div_cancel _ (by norm_num)
      rw [hdiv]
      refine ih hj2 f ?_
      have h1 : (1 : Nat) ≤ 2 ^ j := Nat.one_le_two_pow
      rw [pow_succ] at hfuel
      omega

theorem mem_candidates (k a limit : Nat) (ha : 0 < a) (hk0 : k ≠ 0)
    (hdvd : a ∣ k) (hle : k ≤ limit) : k ∈ candidates a limit := by
  obtain ⟨t, rfl⟩ := hdvd
  have ht0 : 1 ≤ t := by
    rcases Nat.eq_zero_or_pos t with rfl | h0
    · simp at hk0
    · exact h0
  unfold candidates
  rw [List.mem_map]
  refine ⟨t - 1, List.mem_range.mpr ?_, ?_⟩
  · have ht : t ≤ limit / a :=
      (Nat.le_div_iff_mul_le ha).mpr (by rw [Nat.mul_comm]; exact hle)
    omega
  · rw [Nat.sub_add_cancel ht0]
    ring

theorem find?_unique_mem (p : Nat → Bool) (k : Nat)
    (huniq : ∀ j, p j = true → j = k) (hpk : p k = true) :
    ∀ l : List Nat, k ∈ l → l.find? p = some k := by
  intro l
  induction l with
  | nil => intro h; cases h
  | cons a l ih =>
    intro hmem
    rw [List.find?_cons]
    cases hpa : p a with
    | true => rw [huniq a hpa]
    | false =>
      rcases List.mem_cons.mp hmem with rfl | hm
      · rw [hpk] at hpa; cases hpa
      · exact ih hm

/-- If 8 bytes at `j` equal the signature, the source extends at least to
`j + 8`. -/
theorem sigAtP_le (data : List Nat) (j : Nat) (h : sigAtP data j) :
    j + 8 ≤ data.length := by
  unfold sigAtP at h
  have hlen := congrArg List.length h
  simp only [List.length_take, List.length_drop] at hlen
  have : sigBytes.length = 8 := rfl
  omega

/-! ## Claim C6: the alignment-descending scan -/

/-- Claim C6 (amended): when the signature does not match at offset 0 the
scan sets `limit = length - header_size` and starts at the largest power of
two at most `limit - 1` (not `limit`; for `limit ≤ 4` the starting alignment
is already below the minimum stride and no offset is scanned at all); at each
alignment (halving down to the minimum stride 4) it visits `alignment,
2*alignment, ...` up to `limit` and decodes at the first signature match.
Consequently, when the signature appears only at offset `k`, a multiple of 4
(equivalently of a power-of-two alignment ≥ 4), with `k ≤ limit` and
`5 ≤ limit`, and the descriptor at `k` decodes successfully, `find` returns
hit offset `k`. -/
theorem c6_aligned_scan (data : List Nat) (k : Nat) (mm : FMap)
    (hlen : HEADER_SIZE < data.length)
    (hk4 : 4 ∣ k)
    (hkle : k ≤ data.length - HEADER_SIZE)
    (hlim : 5 ≤ data.length - HEADER_SIZE)
    (hsig : sigAtP data k)
    (huniq : ∀ j, sigAtP data j → j = k)
    (hparse : parseFmap (data.drop k) = .ok mm) :
    findFmap data = .ok (mm, k) := by
  by_cases hk0 : k = 0
  · subst hk0
    rw [List.drop_zero] at hparse
    unfold findFmap
    rw [if_neg (by omega), if_pos hsig, hparse]
  · have hs0 : ¬ sigAtP data 0 := fun h => hk0 ((huniq 0 h) ▸ rfl)
    unfold findFmap
    rw [if_neg (by omega), if_neg hs0]
    have hmem : k ∈ allCands (data.length - HEADER_SIZE) := by
      unfold allCands
      rw [List.mem_flatMap]
      refine ⟨4, ?_, mem_candidates k 4 _ (by norm_num) hk0 hk4 hkle⟩
      unfold alignSeq alignStart
      exact mem4_alignSeqAux (lg (data.length - HEADER_SIZE - 1))
        (lg_ge_two _ (by omega)) _ (Nat.le_refl _)
    rw [find?_unique_mem (fun off => decide (sigAtP data off)) k
      (fun j hj => huniq j (of_decide_eq_true hj))
      (decide_eq_true hsig) _ hmem]
    show (match parseFmap (data.drop k) with
      | Except.ok m => Except.ok (m, k)
      | Except.error e => Except.error e) = Except.ok (mm, k)
    rw [hparse]

/-- Witness for C6's amended theorem: the scan finds the descriptor at the
4-aligned offset 8. -/
theorem c6_scan_witness :
    sigAtP c6wdata 8 ∧ 8 ≤ c6wdata.length - HEADER_SIZE ∧
      findFmap c6wdata = .ok (c6mm, 8) := by
  refine ⟨by decide, by decide, ?_⟩
  refine c6_aligned_scan c6wdata 8 c6mm (by decide) (by decide) (by decide)
    (by decide) (by decide) ?_ rfl
  intro j hj
  have hb := sigAtP_le c6wdata j hj
  have hlen : c6wdata.length = 64 := by decide
  have hbound : ∀ i, i < 64 → sigAtP c6wdata i → i = 8 := by decide
  exact hbound j (by omega) hj

/-- Counterexample to C6 as stated: here `limit = 4`, the signature sits
only at offset `k = 4`, a multiple of the power-of-two alignment `4 ≤ limit`,
and the descriptor there decodes fine — yet `find` returns "not found": the
code starts at the largest power of two at most `limit - 1 = 3`, i.e. 2,
which is below the minimum stride, so no offset is ever scanned (had the
start been the largest power of two ≤ `limit` = 4, offset 4 would be
visited). -/
theorem c6_counterexample :
    sigAtP c6data 4 ∧ (4 ∣ 4) ∧ 4 ≤ c6data.length - HEADER_SIZE ∧
      (∀ j, j < c6data.length → sigAtP c6data j → j = 4) ∧
      parseFmap (c6data.drop 4) = .ok c6mm ∧
      findFmap c6data = .error .notFound :=
  ⟨by decide, by decide, by decide, by decide, rfl, rfl⟩

/-! ## Claim C7: behaviour on inputs shorter than the header -/

/-- Claim C7 (amended): a byte source shorter than the fixed header size
makes `find_fmap` fail before any scan with the `IOError` variant carrying an
`UnexpectedEof` error whose message is "Not enough data to fit FMap"; this is
distinguishable from the "not found" error, but it is carried in the generic
I/O-error variant rather than a dedicated "too small" kind. -/
theorem c7_too_small_is_io_error (data : List Nat)
    (h : data.length < HEADER_SIZE) :
    findFmap data = .error (.ioError tooSmallMsg) ∧
      FMapError.ioError tooSmallMsg ≠ FMapError.notFound := by
  constructor
  · unfold findFmap
    rw [if_pos (Nat.le_of_lt h)]
  · intro hc
    cases hc

/-- Witness for C7's amended theorem at the concrete 10-byte input. -/
theorem c7_too_small_witness :
    (List.replicate 10 0).length < HEADER_SIZE ∧
      findFmap (List.replicate 10 0) = .error (.ioError tooSmallMsg) :=
  ⟨by decide, (c7_too_small_is_io_error (List.replicate 10 0) (by decide)).1⟩

theorem c7_counterexample :
    findFmap (List.replicate 10 0) = .error (.ioError tooSmallMsg) ∧
      findFmap c7trunc = .error (.ioError eofMsg) :=
  ⟨rfl, rfl⟩

/-! ## Claim C10: wrong major version at offset 0 -/

/-- Claim C10: when the source is longer than the header, the 8 bytes at
offset 0 are the signature and the major-version byte is not 1, `find_fmap`
fails immediately with `IncorrectVersion` carrying the (major, minor) pair
found at offset 0 — whatever the rest of the source contains, so no other
offset is scanned even if a well-formed descriptor exists elsewhere. -/
theorem c10_version_error_immediate (data : List Nat)
    (hlen : HEADER_SIZE < data.length)
    (hsig : sigAtP data 0)
    (hver : getByte data 8 ≠ VERSION_MAJOR) :
    findFmap data =
      .error (.incorrectVersion (getByte data 8) (getByte data 9)) := by
  unfold findFmap
  rw [if_neg (by omega), if_pos hsig]
  unfold parseFmap
  rw [if_neg (by omega), if_pos hver]

theorem c10_witness :
    HEADER_SIZE < c10data.length ∧ sigAtP c10data 0 ∧
      getByte c10data 8 ≠ VERSION_MAJOR ∧
      findFmap c10data = .error (.incorrectVersion 2 0) :=
  ⟨by decide, by decide, by decide,
    c10_version_error_immediate c10data (by decide) (by decide) (by decide)⟩

/-! ## Claim C8: flag decoding -/

/-- Counterexample to C8 as stated: the raw flags value `0x11` sets the
recognized `Static` bit (1) together with an unrecognized bit (0x10), yet the
decoded flags are empty rather than `Static`: `from_bits` rejects the whole
value and `unwrap_or(empty)` discards the recognized bits too. -/
theorem c8_counterexample :
    (areaOfRaw 0 0 (List.replicate 32 0) 17).flags = 0 ∧
      (areaOfRaw 0 0 (List.replicate 32 0) 17).flags ≠ 1 := by
  constructor <;> decide

/-- Claim C8 (amended): decoding an area record never rejects it on account
of its flags, but when any unrecognized flag bit is set the whole flags field
decodes to the empty set (the recognized bits are dropped as well); only a
value consisting purely of recognized bits is preserved exactly. -/
theorem c8_flags_all_or_nothing (off sz : Nat) (nameRaw : List Nat) (f : Nat) :
    (16 ≤ f → (areaOfRaw off sz nameRaw f).flags = 0) ∧
      (f < 16 → (areaOfRaw off sz nameRaw f).flags = f) := by
  constructor <;> intro hf <;> simp [areaOfRaw, flagsOfRaw] <;> omega

/-- Witness for C8's amended theorem at raw flags 0x11 and 0x3. -/
theorem c8_flags_witness :
    (areaOfRaw 5 6 (List.replicate 32 0) 17).flags = 0 ∧
      (areaOfRaw 5 6 (List.replicate 32 0) 3).flags = 3 :=
  ⟨(c8_flags_all_or_nothing 5 6 (List.replicate 32 0) 17).1 (by decide),
    (c8_flags_all_or_nothing 5 6 (List.replicate 32 0) 3).2 (by decide)⟩

theorem sorted_sortNodes (ns : List Node) : List.Sorted keyLE (sortNodes ns) :=
  List.sorted_insertionSort keyLE ns

theorem perm_sortNodes (ns : List Node) : (sortNodes ns).Perm ns :=
  List.perm_insertionSort keyLE ns

/-! ## Claim C9: position of the synthetic root -/

/-- Under the containment hypothesis of C9's amended claim, no area node
compares at-or-before the synthetic root in the canonical key order. -/
theorem area_not_keyLE_root (m : FMap) (a : FMapArea)
    (ha : m.base < a.offset ∨ (a.offset = m.base ∧ a.size < m.size)) :
    ¬ keyLE (areaNode a) (rootNode m) := by
  intro hk
  unfold keyLE rootNode areaNode at hk
  rcases hk with h | ⟨he, h⟩
  · simp only at h
    omega
  · simp only at he h
    rcases h with h | ⟨h, _⟩ <;> omega

/-- An area node never duplicates the root under the same hypothesis. -/
theorem area_not_dup_root (m : FMap) (a : FMapArea)
    (ha : m.base < a.offset ∨ (a.offset = m.base ∧ a.size < m.size)) :
    ¬ isDuplicate (areaNode a) (rootNode m) := by
  intro hd
  unfold isDuplicate rootNode areaNode at hd
  simp only at hd
  omega

/-- The head of the accepted list survives the dedup pass unchanged when no
later candidate duplicates it (a duplicate would get attached to it as an
alias; overlaps and fresh nodes leave the head untouched). -/
theorem dedupAux_head (ign : Bool) :
    ∀ (xs : List Node) (h : Node) (ds : List Node) (c l : Nat),
      (∀ x ∈ xs, ¬ isDuplicate x h) →
      ∃ ds', (dedupAux ign xs (h :: ds, c, l)).1 = h :: ds' := by
  intro xs
  induction xs with
  | nil => intro h ds c l _; exact ⟨ds, rfl⟩
  | cons x xs ih =>
    intro h ds c l hnd
    have hxh : ¬ isDuplicate x h := hnd x (List.mem_cons_self x xs)
    have hrest : ∀ y ∈ xs, ¬ isDuplicate y h :=
      fun y hy => hnd y (List.mem_cons_of_mem x hy)
    show ∃ ds', (dedupAux ign xs
      ((insertNode ign x (h :: ds)).1, _, _)).1 = h :: ds'
    unfold insertNode
    rw [if_neg hxh]
    by_cases hov : overlapsN x h
    · rw [if_pos hov]
      exact ih h ds _ _ hrest
    · rw [if_neg hov]
      exact ih h _ _ _ hrest

/-- Claim C9 (amended): for every decoded descriptor in which every area
starts strictly after `base`, or starts at `base` with size strictly smaller
than the whole-image size, the synthetic whole-image root node is at index 0
of the canonically sorted list, it is also the first accepted node, and it
has no parent in the built forest. -/
theorem c9_root_first (m : FMap) (ign : Bool)
    (hyp : ∀ a ∈ m.areas,
      m.base < a.offset ∨ (a.offset = m.base ∧ a.size < m.size)) :
    (sortedNodes m).getD 0 defNode = rootNode m ∧
      (acceptedNodes m ign).getD 0 defNode = rootNode m ∧
      parentIdx (acceptedNodes m ign) 0 = none := by
  have hperm : (sortedNodes m).Perm (mkNodes m) := perm_sortNodes _
  have hrootmem : rootNode m ∈ sortedNodes m :=
    hperm.mem_iff.mpr (List.mem_append_right _ (List.mem_singleton.mpr rfl))
  obtain ⟨h, t, heq⟩ : ∃ h t, sortedNodes m = h :: t := by
    cases hs : sortedNodes m with
    | nil => rw [hs] at hrootmem; cases hrootmem
    | cons h t => exact ⟨h, t, rfl⟩
  have hmemh : h ∈ mkNodes m := hperm.mem_iff.mp (heq ▸ List.mem_cons_self h t)
  have hhead : h = rootNode m := by
    rcases List.mem_append.mp hmemh with hmap | hroot
    · obtain ⟨a, ha, rfl⟩ := List.mem_map.mp hmap
      exfalso
      have hroot_t : rootNode m ∈ t := by
        rw [heq] at hrootmem
        rcases List.mem_cons.mp hrootmem with hbad | hm
        · exact absurd hbad.symm (by
            intro hb
            have := area_not_dup_root m a (hyp a ha)
            rw [hb] at this
            exact this ⟨rfl, rfl⟩)
        · exact hm
      have hsorted := sorted_sortNodes (mkNodes m)
      rw [show sortNodes (mkNodes m) = sortedNodes m from rfl, heq] at hsorted
      have hkk := (List.sorted_cons.mp hsorted).1 _ hroot_t
      exact area_not_keyLE_root m a (hyp a ha) hkk
    · exact List.mem_singleton.mp hroot
  subst hhead
  have htperm : t.Perm (m.areas.map areaNode) := by
    have h1 : (rootNode m :: t).Perm (mkNodes m) := heq ▸ hperm
    have h2 : (mkNodes m).Perm (rootNode m :: m.areas.map areaNode) :=
      List.perm_append_singleton _ _
    exact (h1.trans h2).cons_inv
  have hnodup : ∀ x ∈ t, ¬ isDuplicate x (rootNode m) := by
    intro x hx
    obtain ⟨a, ha, rfl⟩ := List.mem_map.mp (htperm.mem_iff.mp hx)
    exact area_not_dup_root m a (hyp a ha)
  obtain ⟨ds', hds'⟩ := dedupAux_head ign t (rootNode m) [] 0 0 hnodup
  have hacc : acceptedNodes m ign = rootNode m :: ds' := by
    unfold acceptedNodes dedup
    rw [heq]
    exact hds'
  refine ⟨by rw [heq]; rfl, by rw [hacc]; rfl, ?_⟩
  unfold parentIdx
  rfl

/-- Witness for C9's amended theorem at the concrete descriptor `c5m`. -/
theorem c9_witness :
    (∀ a ∈ c5m.areas,
      c5m.base < a.offset ∨ (a.offset = c5m.base ∧ a.size < c5m.size)) ∧
      (sortedNodes c5m).getD 0 defNode = rootNode c5m ∧
      parentIdx (acceptedNodes c5m false) 0 = none :=
  ⟨by decide, (c9_root_first c5m false (by decide)).1,
    (c9_root_first c5m false (by decide)).2.2⟩

/-- Counterexample to C9 as stated: for the decoded descriptor `c9bad`
(base 16, one area at offset 0) the area sorts before the synthetic root, so
the root is not at index 0 of the sorted list. -/
theorem c9_counterexample :
    (sortedNodes c9bad).getD 0 defNode ≠ rootNode c9bad ∧
      (sortedNodes c9bad).getD 0 defNode =
        { name := [65], offset := 0, size := 4, aliases := [] } := by
  exact ⟨by decide, by decide⟩

/-- Claim C1 evaluated at the failing input: the accepted forest is
`[root [0,256), child [0,128)]`, the root's only child ends at 128, strictly
before the root's end 256, yet the global gap counter stays 0 and with gap
materialization requested the rebuilt children list contains no placeholder —
the source's trailing-gap branch is guarded by `i == children.len()`, which
is unreachable inside `for i in 0..children.len()`, so the count and the
placeholder the claim (and the spec) require never materialize. -/
theorem c1_trailing_gap_missed :
    childIdxs (acceptedNodes c1m false) 0 = [1] ∧
      nodeEnd (nd (acceptedNodes c1m false) 1) <
        nodeEnd (nd (acceptedNodes c1m false) 0) ∧
      totalGaps true (acceptedNodes c1m false) = 0 ∧
      totalGaps false (acceptedNodes c1m false) = 0 ∧
      (nodeGaps true (acceptedNodes c1m false) 0).1 =
        [nd (acceptedNodes c1m false) 1] := by
  refine ⟨by decide, by decide, by decide, by decide, by decide⟩

theorem isDuplicate_symm {a b : Node} (h : isDuplicate a b) : isDuplicate b a :=
  ⟨h.1.symm, h.2.symm⟩

theorem overlapsN_symm {a b : Node} (h : overlapsN a b) : overlapsN b a :=
  h.elim Or.inr Or.inl

theorem good_symm : Symmetric good := fun _ _ h =>
  ⟨fun hd => h.1 (isDuplicate_symm hd), fun ho => h.2 (overlapsN_symm ho)⟩

/-- Partial overlap is determined by the two intervals alone. -/
theorem overlapsN_congr {a a' b b' : Node} (h1 : a.offset = a'.offset)
    (h2 : a.size = a'.size) (h3 : b.offset = b'.offset) (h4 : b.size = b'.size)
    (h : overlapsN a b) : overlapsN a' b' := by
  unfold overlapsN nodeEnd at *
  omega

/-- Compatibility is determined by the two intervals alone. -/
theorem good_congr {a a' b b' : Node} (h1 : a.offset = a'.offset)
    (h2 : a.size = a'.size) (h3 : b.offset = b'.offset) (h4 : b.size = b'.size)
    (h : good a b) : good a' b' := by
  constructor
  · intro hd
    apply h.1
    unfold isDuplicate at *
    omega
  · intro ho
    exact h.2 (overlapsN_congr h1.symm h2.symm h3.symm h4.symm ho)

/-- Structure of one dedup scan: the candidate either gets absorbed as an
alias by the first duplicate, or dropped by the first overlap (bumping the
counters), or appended; in the first two cases every accepted node before
the hit is compatible with the candidate, in the last all of them are. -/
theorem insertNode_cases (ign : Bool) (x : Node) :
    ∀ ds : List Node,
      (∃ pre d post, ds = pre ++ d :: post ∧ (∀ e ∈ pre, good x e) ∧
        isDuplicate x d ∧
        insertNode ign x ds =
          (pre ++ { d with aliases := d.aliases ++ [x.name] } :: post, 0, 0)) ∨
      (∃ pre d post, ds = pre ++ d :: post ∧ (∀ e ∈ pre, good x e) ∧
        ¬ isDuplicate x d ∧ overlapsN x d ∧
        insertNode ign x ds = (ds, (if ign then 0 else 1), 1)) ∨
      ((∀ e ∈ ds, good x e) ∧ insertNode ign x ds = (ds ++ [x], 0, 0)) := by
  intro ds
  induction ds with
  | nil =>
    right; right
    exact ⟨fun e he => absurd he (List.not_mem_nil e), rfl⟩
  | cons d ds ih =>
    by_cases hd : isDuplicate x d
    · left
      refine ⟨[], d, ds, rfl, fun e he => absurd he (List.not_mem_nil e), hd, ?_⟩
      unfold insertNode
      rw [if_pos hd]
      rfl
    · by_cases ho : overlapsN x d
      · right; left
        refine ⟨[], d, ds, rfl, fun e he => absurd he (List.not_mem_nil e),
          hd, ho, ?_⟩
        unfold insertNode
        rw [if_neg hd, if_pos ho]
      · have hgd : good x d := ⟨hd, ho⟩
        have hins : insertNode ign x (d :: ds) =
            (d :: (insertNode ign x ds).1, (insertNode ign x ds).2.1,
              (insertNode ign x ds).2.2) := by
          simp only [insertNode]
          rw [if_neg hd, if_neg ho]
        rcases ih with ⟨pre, dd, post, hds, hpre, hdup, heq⟩ |
            ⟨pre, dd, post, hds, hpre, hnd, hov, heq⟩ | ⟨hall, heq⟩
        · left
          refine ⟨d :: pre, dd, post, by rw [hds]; rfl, ?_, hdup, ?_⟩
          · intro e he
            rcases List.mem_cons.mp he with rfl | he
            · exact hgd
            · exact hpre e he
          · rw [hins, heq]
            rfl
        · right; left
          refine ⟨d :: pre, dd, post, by rw [hds]; rfl, ?_, hnd, hov, ?_⟩
          · intro e he
            rcases List.mem_cons.mp he with rfl | he
            · exact hgd
            · exact hpre e he
          · rw [hins, heq]
        · right; right
          refine ⟨?_, ?_⟩
          · intro e he
            rcases List.mem_cons.mp he with rfl | he
            · exact hgd
            · exact hall e he
          · rw [hins, heq]
            rfl

/-- The accepted list does not depend on the ignore flag. -/
theorem insertNode_fst_ign (x : Node) : ∀ ds,
    (insertNode true x ds).1 = (insertNode false x ds).1 := by
  intro ds
  induction ds with
  | nil => rfl
  | cons d ds ih =>
    unfold insertNode
    by_cases hd : isDuplicate x d
    · rw [if_pos hd, if_pos hd]
    · rw [if_neg hd, if_neg hd]
      by_cases ho : overlapsN x d
      · rw [if_pos ho, if_pos ho]
      · rw [if_neg ho, if_neg ho]
        show d :: (insertNode true x ds).1 = d :: (insertNode false x ds).1
        rw [ih]

/-- The logged-overlap counter does not depend on the ignore flag. -/
theorem insertNode_log_ign (x : Node) : ∀ ds,
    (insertNode true x ds).2.2 = (insertNode false x ds).2.2 := by
  intro ds
  induction ds with
  | nil => rfl
  | cons d ds ih =>
    unfold insertNode
    by_cases hd : isDuplicate x d
    · rw [if_pos hd, if_pos hd]
    · rw [if_neg hd, if_neg hd]
      by_cases ho : overlapsN x d
      · rw [if_pos ho, if_pos ho]
      · rw [if_neg ho, if_neg ho]
        show (insertNode true x ds).2.2 = (insertNode false x ds).2.2
        rw [ih]

/-- The overlap counter is the logged counter, except that it is suppressed
when overlaps are ignored. -/
theorem insertNode_cnt (ign : Bool) (x : Node) : ∀ ds,
    (insertNode ign x ds).2.1 =
      if ign then 0 else (insertNode ign x ds).2.2 := by
  intro ds
  induction ds with
  | nil => cases ign <;> rfl
  | cons d ds ih =>
    unfold insertNode
    by_cases hd : isDuplicate x d
    · rw [if_pos hd]
      cases ign <;> rfl
    · rw [if_neg hd]
      by_cases ho : overlapsN x d
      · rw [if_pos ho]
      · rw [if_neg ho]
        exact ih

/-- Counter accumulation is additive over the fold. -/
theorem dedupAux_add (ign : Bool) : ∀ (xs : List Node) (ds : List Node) (c l : Nat),
    dedupAux ign xs (ds, c, l) =
      ((dedupAux ign xs (ds, 0, 0)).1,
        c + (dedupAux ign xs (ds, 0, 0)).2.1,
        l + (dedupAux ign xs (ds, 0, 0)).2.2) := by
  intro xs
  induction xs with
  | nil => intro ds c l; simp [dedupAux]
  | cons x xs ih =>
    intro ds c l
    have hL : dedupAux ign (x :: xs) (ds, c, l) =
        dedupAux ign xs ((insertNode ign x ds).1, c + (insertNode ign x ds).2.1,
          l + (insertNode ign x ds).2.2) := rfl
    have hR : dedupAux ign (x :: xs) (ds, 0, 0) =
        dedupAux ign xs ((insertNode ign x ds).1, 0 + (insertNode ign x ds).2.1,
          0 + (insertNode ign x ds).2.2) := rfl
    rw [hL, hR, ih _ (c + (insertNode ign x ds).2.1) (l + (insertNode ign x ds).2.2),
      ih _ (0 + (insertNode ign x ds).2.1) (0 + (insertNode ign x ds).2.2)]
    simp [Nat.add_assoc]

/-- With overlaps ignored the overlap counter stays 0. -/
theorem dedupAux_cnt_true : ∀ (xs : List Node) (ds : List Node),
    (dedupAux true xs (ds, 0, 0)).2.1 = 0 := by
  intro xs
  induction xs with
  | nil => intro ds; rfl
  | cons x xs ih =>
    intro ds
    have hR : dedupAux true (x :: xs) (ds, 0, 0) =
        dedupAux true xs ((insertNode true x ds).1, 0 + (insertNode true x ds).2.1,
          0 + (insertNode true x ds).2.2) := rfl
    rw [hR, dedupAux_add]
    have h1 : (insertNode true x ds).2.1 = 0 := by
      rw [insertNode_cnt true x ds]
      rfl
    have h2 := ih (insertNode true x ds).1
    show 0 + (insertNode true x ds).2.1 +
      (dedupAux true xs ((insertNode true x ds).1, 0, 0)).2.1 = 0
    omega

/-- Without tolerance the overlap counter equals the logged counter. -/
theorem dedupAux_cnt_false : ∀ (xs : List Node) (ds : List Node),
    (dedupAux false xs (ds, 0, 0)).2.1 = (dedupAux false xs (ds, 0, 0)).2.2 := by
  intro xs
  induction xs with
  | nil => intro ds; rfl
  | cons x xs ih =>
    intro ds
    have hR : dedupAux false (x :: xs) (ds, 0, 0) =
        dedupAux false xs ((insertNode false x ds).1,
          0 + (insertNode false x ds).2.1, 0 + (insertNode false x ds).2.2) := rfl
    rw [hR, dedupAux_add]
    have h1 : (insertNode false x ds).2.1 = (insertNode false x ds).2.2 := by
      rw [insertNode_cnt false x ds]
      rfl
    have h2 := ih (insertNode false x ds).1
    show 0 + (insertNode false x ds).2.1 +
        (dedupAux false xs ((insertNode false x ds).1, 0, 0)).2.1 =
      0 + (insertNode false x ds).2.2 +
        (dedupAux false xs ((insertNode false x ds).1, 0, 0)).2.2
    omega

/-- Neither the accepted list nor the logged counter depends on the ignore
flag. -/
theorem dedupAux_ign : ∀ (xs : List Node) (ds : List Node),
    (dedupAux true xs (ds, 0, 0)).1 = (dedupAux false xs (ds, 0, 0)).1 ∧
      (dedupAux true xs (ds, 0, 0)).2.2 = (dedupAux false xs (ds, 0, 0)).2.2 := by
  intro xs
  induction xs with
  | nil => intro ds; exact ⟨rfl, rfl⟩
  | cons x xs ih =>
    intro ds
    have hT : dedupAux true (x :: xs) (ds, 0, 0) =
        dedupAux true xs ((insertNode true x ds).1, 0 + (insertNode true x ds).2.1,
          0 + (insertNode true x ds).2.2) := rfl
    have hF : dedupAux false (x :: xs) (ds, 0, 0) =
        dedupAux false xs ((insertNode false x ds).1,
          0 + (insertNode false x ds).2.1, 0 + (insertNode false x ds).2.2) := rfl
    obtain ⟨h1, h2⟩ := ih (insertNode false x ds).1
    have hA := dedupAux_add true xs (insertNode true x ds).1
      (0 + (insertNode true x ds).2.1) (0 + (insertNode true x ds).2.2)
    have hB := dedupAux_add false xs (insertNode false x ds).1
      (0 + (insertNode false x ds).2.1) (0 + (insertNode false x ds).2.2)
    constructor
    · rw [hT, hF, hA, hB]
      show (dedupAux true xs ((insertNode true x ds).1, 0, 0)).1 =
        (dedupAux false xs ((insertNode false x ds).1, 0, 0)).1
      rw [insertNode_fst_ign]
      exact h1
    · rw [hT, hF, hA, hB]
      show 0 + (insertNode true x ds).2.2 +
          (dedupAux true xs ((insertNode true x ds).1, 0, 0)).2.2 =
        0 + (insertNode false x ds).2.2 +
          (dedupAux false xs ((insertNode false x ds).1, 0, 0)).2.2
      rw [insertNode_log_ign, insertNode_fst_ign, h2]

/-- The dedup scan preserves pairwise compatibility of the accepted list. -/
theorem pairwise_good_insert (ign : Bool) (x : Node) (ds : List Node)
    (h : List.Pairwise good ds) : List.Pairwise good (insertNode ign x ds).1 := by
  rcases insertNode_cases ign x ds with ⟨pre, d, post, hds, _, _, heq⟩ |
      ⟨_, _, _, _, _, _, _, heq⟩ | ⟨hall, heq⟩
  · rw [heq]
    subst hds
    obtain ⟨hp, hdp, hcross⟩ := List.pairwise_append.mp h
    refine List.pairwise_append.mpr ⟨hp, ?_, ?_⟩
    · rw [List.pairwise_cons] at hdp ⊢
      exact ⟨fun y hy => good_congr rfl rfl rfl rfl (hdp.1 y hy), hdp.2⟩
    · intro a ha b hb
      rcases List.mem_cons.mp hb with rfl | hb
      · exact good_congr rfl rfl rfl rfl
          (hcross a ha d (List.mem_cons_self d post))
      · exact hcross a ha b (List.mem_cons_of_mem _ hb)
  · rw [heq]
    exact h
  · rw [heq]
    refine List.pairwise_append.mpr ⟨h, by simp, ?_⟩
    intro a ha b hb
    rw [List.mem_singleton.mp hb]
    exact good_symm (hall a ha)

theorem pairwise_good_dedupAux (ign : Bool) : ∀ (xs : List Node)
    (ds : List Node) (c l : Nat), List.Pairwise good ds →
    List.Pairwise good (dedupAux ign xs (ds, c, l)).1 := by
  intro xs
  induction xs with
  | nil => intro ds c l h; exact h
  | cons x xs ih =>
    intro ds c l h
    exact ih (insertNode ign x ds).1 _ _ (pairwise_good_insert ign x ds h)

/-- Accepted nodes are pairwise compatible: no duplicates, no partial
overlaps. -/
theorem pairwise_good_accepted (m : FMap) (ign : Bool) :
    List.Pairwise good (acceptedNodes m ign) := by
  unfold acceptedNodes dedup
  cases hs : sortedNodes m with
  | nil => simp
  | cons h t =>
    exact pairwise_good_dedupAux ign t [h] 0 0 (by simp)

/-- Every accepted node survives the rest of the fold with its name,
interval and (possibly grown) alias list. -/
theorem insert_stability (ign : Bool) (x : Node) : ∀ (ds : List Node) (d : Node),
    d ∈ ds → ∃ e ∈ (insertNode ign x ds).1, d.offset = e.offset ∧
      d.size = e.size ∧ d.name = e.name ∧ d.aliases ⊆ e.aliases := by
  intro ds
  induction ds with
  | nil => intro d hd; cases hd
  | cons dd ds ih =>
    intro d hd
    unfold insertNode
    by_cases hdup : isDuplicate x dd
    · rw [if_pos hdup]
      rcases List.mem_cons.mp hd with rfl | hd
      · exact ⟨{ d with aliases := d.aliases ++ [x.name] },
          List.mem_cons_self _ _, rfl, rfl, rfl, List.subset_append_left _ _⟩
      · exact ⟨d, List.mem_cons_of_mem _ hd, rfl, rfl, rfl, List.Subset.refl _⟩
    · rw [if_neg hdup]
      by_cases ho : overlapsN x dd
      · rw [if_pos ho]
        exact ⟨d, hd, rfl, rfl, rfl, List.Subset.refl _⟩
      · rw [if_neg ho]
        rcases List.mem_cons.mp hd with rfl | hd
        · exact ⟨d, List.mem_cons_self _ _, rfl, rfl, rfl, List.Subset.refl _⟩
        · obtain ⟨e, he, h1, h2, h3, h4⟩ := ih d hd
          exact ⟨e, List.mem_cons_of_mem _ he, h1, h2, h3, h4⟩

theorem dedupAux_stability (ign : Bool) : ∀ (xs : List Node)
    (ds : List Node) (c l : Nat) (d : Node), d ∈ ds →
    ∃ e ∈ (dedupAux ign xs (ds, c, l)).1, d.offset = e.offset ∧
      d.size = e.size ∧ d.name = e.name ∧ d.aliases ⊆ e.aliases := by
  intro xs
  induction xs with
  | nil => intro ds c l d hd; exact ⟨d, hd, rfl, rfl, rfl, List.Subset.refl _⟩
  | cons x xs ih =>
    intro ds c l d hd
    obtain ⟨e1, he1, h1, h2, h3, h4⟩ := insert_stability ign x ds d hd
    obtain ⟨e2, he2, g1, g2, g3, g4⟩ := ih (insertNode ign x ds).1 _ _ e1 he1
    exact ⟨e2, he2, h1.trans g1, h2.trans g2, h3.trans g3, h4.trans g4⟩

/-- When no overlap was logged, every processed candidate's interval is
present among the accepted nodes (as itself or as the duplicate it was
folded into). -/
theorem dedupAux_logged_mem (ign : Bool) : ∀ (xs : List Node)
    (ds : List Node) (c l : Nat),
    (dedupAux ign xs (ds, c, l)).2.2 = l →
    ∀ x ∈ xs, ∃ e ∈ (dedupAux ign xs (ds, c, l)).1,
      x.offset = e.offset ∧ x.size = e.size := by
  intro xs
  induction xs with
  | nil => intro ds c l _ x hx; cases hx
  | cons y ys ih =>
    intro ds c l hlog x hx
    have hstep : dedupAux ign (y :: ys) (ds, c, l) =
        dedupAux ign ys ((insertNode ign y ds).1, c + (insertNode ign y ds).2.1,
          l + (insertNode ign y ds).2.2) := rfl
    have hsum : (dedupAux ign (y :: ys) (ds, c, l)).2.2 =
        l + (insertNode ign y ds).2.2 +
          (dedupAux ign ys ((insertNode ign y ds).1, 0, 0)).2.2 := by
      rw [hstep, dedupAux_add]
    have hz1 : (insertNode ign y ds).2.2 = 0 := by omega
    have hz2 : (dedupAux ign ys ((insertNode ign y ds).1, 0, 0)).2.2 = 0 := by
      omega
    have hlog' : (dedupAux ign ys ((insertNode ign y ds).1,
        c + (insertNode ign y ds).2.1, l + (insertNode ign y ds).2.2)).2.2 =
        l + (insertNode ign y ds).2.2 := by
      rw [dedupAux_add ign ys (insertNode ign y ds).1
        (c + (insertNode ign y ds).2.1) (l + (insertNode ign y ds).2.2)]
      show l + (insertNode ign y ds).2.2 +
        (dedupAux ign ys ((insertNode ign y ds).1, 0, 0)).2.2 =
        l + (insertNode ign y ds).2.2
      omega
    rcases List.mem_cons.mp hx with rfl | hx
    · rcases insertNode_cases ign x ds with ⟨pre, d, post, hds, _, hdup, heq⟩ |
          ⟨pre, d, post, hds, _, _, _, heq⟩ | ⟨_, heq⟩
      · have hmem : ({ d with aliases := d.aliases ++ [x.name] } : Node) ∈
            (insertNode ign x ds).1 := by
          rw [heq]
          exact List.mem_append_right _ (List.mem_cons_self _ _)
        obtain ⟨e, he, g1, g2, _, _⟩ :=
          dedupAux_stability ign ys (insertNode ign x ds).1
            (c + (insertNode ign x ds).2.1) (l + (insertNode ign x ds).2.2)
            _ hmem
        rw [hstep]
        exact ⟨e, he, by rw [hdup.1]; exact g1, by rw [hdup.2]; exact g2⟩
      · exfalso
        rw [heq] at hz1
        simp at hz1
      · have hmem : x ∈ (insertNode ign x ds).1 := by
          rw [heq]
          exact List.mem_append_right _ (List.mem_singleton.mpr rfl)
        obtain ⟨e, he, g1, g2, _, _⟩ :=
          dedupAux_stability ign ys (insertNode ign x ds).1
            (c + (insertNode ign x ds).2.1) (l + (insertNode ign x ds).2.2)
            _ hmem
        rw [hstep]
        exact ⟨e, he, g1, g2⟩
    · rw [hstep]
      exact ih (insertNode ign y ds).1 _ _ hlog' x hx

/-- Any partially-overlapping pair among the builder's regions forces at
least one logged overlap. -/
theorem logged_pos_of_overlap (m : FMap) (ign : Bool)
    (hpair : ∃ a ∈ mkNodes m, ∃ b ∈ mkNodes m, overlapsN a b) :
    0 < loggedOverlaps m ign := by
  by_contra h0
  have hz : loggedOverlaps m ign = 0 := by omega
  obtain ⟨a, ha, b, hb, hab⟩ := hpair
  have hperm := perm_sortNodes (mkNodes m)
  have hmem_a : a ∈ sortedNodes m := hperm.mem_iff.mpr ha
  have hmem_b : b ∈ sortedNodes m := hperm.mem_iff.mpr hb
  obtain ⟨hh, t, heq⟩ : ∃ hh t, sortedNodes m = hh :: t := by
    cases hs : sortedNodes m with
    | nil => rw [hs] at hmem_a; cases hmem_a
    | cons hh t => exact ⟨hh, t, rfl⟩
  have hacc : acceptedNodes m ign = (dedupAux ign t ([hh], 0, 0)).1 := by
    unfold acceptedNodes dedup
    rw [heq]
  have hlog : (dedupAux ign t ([hh], 0, 0)).2.2 = 0 := by
    have hval : loggedOverlaps m ign = (dedupAux ign t ([hh], 0, 0)).2.2 := by
      unfold loggedOverlaps dedup
      rw [heq]
    omega
  have hrep : ∀ x ∈ sortedNodes m, ∃ e ∈ acceptedNodes m ign,
      x.offset = e.offset ∧ x.size = e.size := by
    intro x hx
    rw [heq] at hx
    rcases List.mem_cons.mp hx with rfl | hx
    · obtain ⟨e, he, g1, g2, _, _⟩ := dedupAux_stability ign t [x] 0 0 x
        (List.mem_singleton.mpr rfl)
      exact ⟨e, by rw [hacc]; exact he, g1, g2⟩
    · obtain ⟨e, he, g1, g2⟩ := dedupAux_logged_mem ign t [hh] 0 0 hlog x hx
      exact ⟨e, by rw [hacc]; exact he, g1, g2⟩
  obtain ⟨ea, hea, ha1, ha2⟩ := hrep a hmem_a
  obtain ⟨eb, heb, hb1, hb2⟩ := hrep b hmem_b
  have hovl : overlapsN ea eb := overlapsN_congr ha1 ha2 hb1 hb2 hab
  have hne : ea ≠ eb := by
    intro hcontra
    rw [hcontra] at hovl
    unfold overlapsN at hovl
    omega
  exact (List.Pairwise.forall good_symm (pairwise_good_accepted m ign)
    hea heb hne).2 hovl

/-! ## Claim C2: overlap detection, failure and tolerance -/

/-- Claim C2: for every descriptor whose region list (areas plus the
synthetic whole-image region) contains a partially-overlapping pair, the
tree construction without tolerance fails carrying the overlap count — the
number of offending candidate-vs-accepted comparisons (= logged reports) —
which is positive; with tolerance requested no failure is raised, the
overlap counter is 0, the same overlapping regions are excluded (the
accepted forest is identical to the non-tolerant one and contains no
partially-overlapping pair), and the offending comparisons are still logged
in the same number for the warning. -/
theorem c2_overlap_handling (m : FMap) (sg : Bool)
    (hpair : ∃ a ∈ mkNodes m, ∃ b ∈ mkNodes m, overlapsN a b) :
    dumpHumanReadable m sg false = .error (loggedOverlaps m false) ∧
      0 < loggedOverlaps m false ∧
      overlapCount m false = loggedOverlaps m false ∧
      dumpHumanReadable m sg true =
        .ok (acceptedNodes m true, totalGaps sg (acceptedNodes m true)) ∧
      overlapCount m true = 0 ∧
      loggedOverlaps m true = loggedOverlaps m false ∧
      acceptedNodes m true = acceptedNodes m false ∧
      List.Pairwise (fun a b => ¬ overlapsN a b) (acceptedNodes m false) := by
  have hign : ∀ ns : List Node, (dedup true ns).1 = (dedup false ns).1 ∧
      (dedup true ns).2.2 = (dedup false ns).2.2 := by
    intro ns
    cases ns with
    | nil => exact ⟨rfl, rfl⟩
    | cons h t => exact dedupAux_ign t [h]
  have hcnt0 : overlapCount m true = 0 := by
    unfold overlapCount
    cases hs : sortedNodes m with
    | nil => rfl
    | cons h t => exact dedupAux_cnt_true t [h]
  have hcl : overlapCount m false = loggedOverlaps m false := by
    unfold overlapCount loggedOverlaps
    cases hs : sortedNodes m with
    | nil => rfl
    | cons h t => exact dedupAux_cnt_false t [h]
  have hpos := logged_pos_of_overlap m false hpair
  refine ⟨?_, hpos, hcl, ?_, hcnt0, ?_, ?_, ?_⟩
  · unfold dumpHumanReadable
    rw [if_pos (by omega), hcl]
  · unfold dumpHumanReadable
    rw [if_neg (by omega)]
  · unfold loggedOverlaps
    exact (hign (sortedNodes m)).2
  · unfold acceptedNodes
    exact (hign (sortedNodes m)).1
  · exact (pairwise_good_accepted m false).imp (fun h => h.2)

/-- Witness for C2 at the concrete overlapping descriptor `c2m`. -/
theorem c2_witness :
    (∃ a ∈ mkNodes c2m, ∃ b ∈ mkNodes c2m, overlapsN a b) ∧
      dumpHumanReadable c2m false false = .error (loggedOverlaps c2m false) ∧
      overlapCount c2m true = 0 :=
  ⟨by decide, (c2_overlap_handling c2m false (by decide)).1,
    (c2_overlap_handling c2m false (by decide)).2.2.2.2.1⟩

/-! ## Claim C4: exact duplicates fold into aliases -/

/-- Within a pairwise-compatible list, the node holding a given interval is
unique. -/
theorem mem_same_iv_unique (l : List Node) (hp : List.Pairwise good l)
    {a b : Node} (ha : a ∈ l) (hb : b ∈ l) (hoff : a.offset = b.offset)
    (hsz : a.size = b.size) : a = b := by
  by_contra hne
  exact (List.Pairwise.forall good_symm hp ha hb hne).1 ⟨hoff, hsz⟩

/-- Every processed candidate sharing its interval with a finally-accepted
node of a different name ends up in that node's alias list. -/
theorem dedupAux_dup_alias (ign : Bool) : ∀ (xs : List Node) (ds : List Node)
    (c l : Nat), List.Pairwise good ds →
    ∀ x ∈ xs, ∀ df ∈ (dedupAux ign xs (ds, c, l)).1,
      x.offset = df.offset → x.size = df.size → x.name ≠ df.name →
      x.name ∈ df.aliases := by
  intro xs
  induction xs with
  | nil => intro ds c l _ x hx; cases hx
  | cons y ys ih =>
    intro ds c l hp x hx df hdf hoff hsz hname
    have hstep : dedupAux ign (y :: ys) (ds, c, l) =
        dedupAux ign ys ((insertNode ign y ds).1, c + (insertNode ign y ds).2.1,
          l + (insertNode ign y ds).2.2) := rfl
    have hp' : List.Pairwise good (insertNode ign y ds).1 :=
      pairwise_good_insert ign y ds hp
    have hpfin : List.Pairwise good (dedupAux ign (y :: ys) (ds, c, l)).1 := by
      rw [hstep]
      exact pairwise_good_dedupAux ign ys _ _ _ hp'
    rw [hstep] at hdf
    rcases List.mem_cons.mp hx with rfl | hx
    · rcases insertNode_cases ign x ds with ⟨pre, d, post, hds, _, hdup, heq⟩ |
          ⟨pre, d, post, hds, _, _, hov, heq⟩ | ⟨_, heq⟩
      · have hmem : ({ d with aliases := d.aliases ++ [x.name] } : Node) ∈
            (insertNode ign x ds).1 := by
          rw [heq]
          exact List.mem_append_right _ (List.mem_cons_self _ _)
        obtain ⟨e, he, g1, g2, g3, g4⟩ := dedupAux_stability ign ys
          (insertNode ign x ds).1 (c + (insertNode ign x ds).2.1)
          (l + (insertNode ign x ds).2.2) _ hmem
        have hoe : df.offset = e.offset := by
          rw [← hoff, hdup.1]
          exact g1
        have hse : df.size = e.size := by
          rw [← hsz, hdup.2]
          exact g2
        have hde : df = e := mem_same_iv_unique _
          (by rw [hstep] at hpfin; exact hpfin) hdf he hoe hse
        rw [hde]
        refine g4 ?_
        exact List.mem_append_right _ (List.mem_singleton.mpr rfl)
      · exfalso
        have hdmem : d ∈ (insertNode ign x ds).1 := by
          rw [heq]
          rw [hds]
          exact List.mem_append_right _ (List.mem_cons_self _ _)
        obtain ⟨e, he, g1, g2, _, _⟩ := dedupAux_stability ign ys
          (insertNode ign x ds).1 (c + (insertNode ign x ds).2.1)
          (l + (insertNode ign x ds).2.2) _ hdmem
        have hovl : overlapsN df e := overlapsN_congr hoff hsz g1 g2 hov
        have hne : df ≠ e := by
          intro hc
          rw [hc] at hovl
          unfold overlapsN at hovl
          omega
        exact (List.Pairwise.forall good_symm
          (by rw [hstep] at hpfin; exact hpfin) hdf he hne).2 hovl
      · exfalso
        have hxmem : x ∈ (insertNode ign x ds).1 := by
          rw [heq]
          exact List.mem_append_right _ (List.mem_singleton.mpr rfl)
        obtain ⟨e, he, g1, g2, g3, _⟩ := dedupAux_stability ign ys
          (insertNode ign x ds).1 (c + (insertNode ign x ds).2.1)
          (l + (insertNode ign x ds).2.2) _ hxmem
        have hde : df = e := mem_same_iv_unique _
          (by rw [hstep] at hpfin; exact hpfin) hdf he
          (by rw [← hoff]; exact g1) (by rw [← hsz]; exact g2)
        exact hname (by rw [hde, ← g3])
    · exact ih (insertNode ign y ds).1 _ _ hp' x hx df hdf hoff hsz hname

/-- Claim C4: whenever a region of the builder's list shares its exact
(offset, size) with an accepted node of a different name (the earlier
accepted node of the pair, after the canonical sort), the region's name is
in that node's alias list, and no other accepted node carries this interval
— in particular the dropped duplicate never appears as an independent node
anywhere in the forest. -/
theorem c4_duplicates_aliased (m : FMap) (ign : Bool) (r d : Node)
    (hr : r ∈ mkNodes m) (hd : d ∈ acceptedNodes m ign)
    (hoff : r.offset = d.offset) (hsz : r.size = d.size)
    (hname : r.name ≠ d.name) :
    r.name ∈ d.aliases ∧
      ∀ e ∈ acceptedNodes m ign, e.offset = r.offset → e.size = r.size →
        e = d := by
  have hpacc := pairwise_good_accepted m ign
  constructor
  · have hperm := perm_sortNodes (mkNodes m)
    have hmem : r ∈ sortedNodes m := hperm.mem_iff.mpr hr
    obtain ⟨hh, t, heq⟩ : ∃ hh t, sortedNodes m = hh :: t := by
      cases hs : sortedNodes m with
      | nil => rw [hs] at hmem; cases hmem
      | cons hh t => exact ⟨hh, t, rfl⟩
    have hacc : acceptedNodes m ign = (dedupAux ign t ([hh], 0, 0)).1 := by
      unfold acceptedNodes dedup
      rw [heq]
    rw [heq] at hmem
    rcases List.mem_cons.mp hmem with rfl | hmem_t
    · exfalso
      obtain ⟨e, he, g1, g2, g3, _⟩ := dedupAux_stability ign t [r] 0 0 r
        (List.mem_singleton.mpr rfl)
      rw [← hacc] at he
      have hed : e = d := mem_same_iv_unique _ hpacc he hd
        (by rw [← g1, hoff]) (by rw [← g2, hsz])
      exact hname (by rw [g3, hed])
    · have hpd := dedupAux_dup_alias ign t [hh] 0 0 (by simp) r hmem_t d
        (by rw [hacc] at hd; exact hd) hoff hsz hname
      exact hpd
  · intro e he h1 h2
    exact mem_same_iv_unique _ hpacc he hd (by rw [h1, hoff]) (by rw [h2, hsz])

/-- Witness for C4 at the concrete duplicate pair of `c4m`. -/
theorem c4_witness :
    c4r ∈ mkNodes c4m ∧ c4d ∈ acceptedNodes c4m false ∧
      c4r.name ∈ c4d.aliases :=
  ⟨by decide, by decide,
    (c4_duplicates_aliased c4m false c4r c4d (by decide) (by decide)
      rfl rfl (by decide)).1⟩

theorem insert_sk (ign : Bool) (x : Node) (ds : List Node) :
    List.map sk (insertNode ign x ds).1 = List.map sk ds ∨
      List.map sk (insertNode ign x ds).1 = List.map sk ds ++ [sk x] := by
  rcases insertNode_cases ign x ds with ⟨pre, d, post, hds, _, _, heq⟩ |
      ⟨_, _, _, _, _, _, _, heq⟩ | ⟨_, heq⟩
  · left
    rw [heq, hds]
    show List.map sk (pre ++ { d with aliases := d.aliases ++ [x.name] } :: post)
      = List.map sk (pre ++ d :: post)
    simp [sk]
  · left
    rw [heq]
  · right
    rw [heq]
    show List.map sk (ds ++ [x]) = List.map sk ds ++ [sk x]
    simp

theorem dedupAux_sk_sublist (ign : Bool) : ∀ (xs : List Node)
    (ds : List Node) (c l : Nat),
    (List.map sk (dedupAux ign xs (ds, c, l)).1).Sublist
      (List.map sk ds ++ List.map sk xs) := by
  intro xs
  induction xs with
  | nil =>
    intro ds c l
    show (List.map sk ds).Sublist (List.map sk ds ++ List.map sk ([] : List Node))
    simp
  | cons x xs ih =>
    intro ds c l
    have hstep : dedupAux ign (x :: xs) (ds, c, l) =
        dedupAux ign xs ((insertNode ign x ds).1, c + (insertNode ign x ds).2.1,
          l + (insertNode ign x ds).2.2) := rfl
    rw [hstep]
    have hih := ih (insertNode ign x ds).1 (c + (insertNode ign x ds).2.1)
      (l + (insertNode ign x ds).2.2)
    have htarget : (List.map sk (insertNode ign x ds).1 ++ List.map sk xs).Sublist
        (List.map sk ds ++ List.map sk (x :: xs)) := by
      rcases insert_sk ign x ds with hs | hs
      · rw [hs, List.map_cons]
        exact List.Sublist.append_left (List.sublist_cons_self _ _) _
      · rw [hs, List.map_cons, List.append_assoc]
        exact List.Sublist.refl _
    exact hih.trans htarget

/-- The accepted list is still sorted by the canonical key. -/
theorem pairwise_keyLE_accepted (m : FMap) (ign : Bool) :
    List.Pairwise keyLE (acceptedNodes m ign) := by
  have hs : List.Pairwise keyLE (sortedNodes m) := sorted_sortNodes (mkNodes m)
  have hsk : List.Pairwise skKeyLE (List.map sk (sortedNodes m)) :=
    List.pairwise_map.mpr (hs.imp (fun h => h))
  have hsub : (List.map sk (acceptedNodes m ign)).Sublist
      (List.map sk (sortedNodes m)) := by
    unfold acceptedNodes dedup
    cases heq : sortedNodes m with
    | nil => simp
    | cons hh t =>
      have h1 := dedupAux_sk_sublist ign t [hh] 0 0
      simpa using h1
  have hacc_sk : List.Pairwise skKeyLE (List.map sk (acceptedNodes m ign)) :=
    List.Pairwise.sublist hsub hsk
  exact (List.pairwise_map.mp hacc_sk).imp (fun h => h)

/-- In the accepted list any strict container of a node sits at a smaller
index: sortedness puts containers first, and equal intervals are impossible
among accepted nodes. -/
theorem container_lt (ds : List Node) (hkey : List.Pairwise keyLE ds)
    (hgood : List.Pairwise good ds) (i j : Nat) (hi : i < ds.length)
    (hj : j < ds.length) (hne : j ≠ i)
    (hfit : fitsIn (nd ds i) (nd ds j)) : j < i := by
  by_contra hcon
  have hij : i < j := by omega
  have hei : nd ds i = ds[i] := List.getD_eq_getElem ds defNode hi
  have hej : nd ds j = ds[j] := List.getD_eq_getElem ds defNode hj
  have hk : keyLE (nd ds i) (nd ds j) := by
    have h1 := List.pairwise_iff_get.mp hkey ⟨i, hi⟩ ⟨j, hj⟩ hij
    rw [hei, hej]
    simpa [List.get_eq_getElem] using h1
  have hg : good (nd ds i) (nd ds j) := by
    have h1 := List.pairwise_iff_get.mp hgood ⟨i, hi⟩ ⟨j, hj⟩ hij
    rw [hei, hej]
    simpa [List.get_eq_getElem] using h1
  obtain ⟨hf1, hf2⟩ := hfit
  unfold nodeEnd at hf2
  rcases hk with h1 | ⟨h2, h3 | ⟨h4, _⟩⟩
  · omega
  · omega
  · exact hg.1 ⟨h2, h4⟩

theorem scanBack_zero (ds : List Node) (x : Node) : scanBack ds x 0 = none := rfl

theorem scanBack_succ (ds : List Node) (x : Node) (i : Nat) :
    scanBack ds x (i + 1) =
      if fitsIn x (nd ds i) then some i else scanBack ds x i := by
  unfold scanBack
  rw [List.range_succ, List.reverse_append]
  by_cases hf : fitsIn x (nd ds i)
  · rw [if_pos hf]
    simp [List.find?_cons, hf]
  · rw [if_neg hf]
    simp [List.find?_cons, hf]

/-- The backward scan returns exactly the greatest index below `i` whose
node contains `x`. -/
theorem scanBack_spec (ds : List Node) (x : Node) : ∀ i k,
    scanBack ds x i = some k ↔
      (k < i ∧ fitsIn x (nd ds k) ∧
        ∀ j, k < j → j < i → ¬ fitsIn x (nd ds j)) := by
  intro i
  induction i with
  | zero =>
    intro k
    constructor
    · intro h
      rw [scanBack_zero] at h
      cases h
    · rintro ⟨hk, _, _⟩
      omega
  | succ i ih =>
    intro k
    rw [scanBack_succ]
    by_cases hf : fitsIn x (nd ds i)
    · rw [if_pos hf]
      constructor
      · intro h
        have hk : k = i := by
          injection h with h
          omega
        subst hk
        exact ⟨by omega, hf, fun j h1 h2 => by omega⟩
      · rintro ⟨hk, hfk, hall⟩
        have : k = i := by
          by_contra hne
          exact hall i (by omega) (by omega) hf
        rw [this]
    · rw [if_neg hf, ih k]
      constructor
      · rintro ⟨hk, hfk, hall⟩
        refine ⟨by omega, hfk, fun j h1 h2 => ?_⟩
        rcases Nat.lt_or_ge j i with hj | hj
        · exact hall j h1 hj
        · have hji : j = i := by omega
          rw [hji]
          exact hf
      · rintro ⟨hk, hfk, hall⟩
        have hki : k ≠ i := fun he => hf (he ▸ hfk)
        exact ⟨by omega, hfk, fun j h1 h2 => hall j h1 (by omega)⟩

theorem scanBack_eq_none (ds : List Node) (x : Node) (i : Nat) :
    scanBack ds x i = none ↔ ∀ k, k < i → ¬ fitsIn x (nd ds k) := by
  unfold scanBack
  rw [List.find?_eq_none]
  constructor
  · intro h k hk hf
    have hmem : k ∈ (List.range i).reverse := by
      rw [List.mem_reverse, List.mem_range]
      exact hk
    exact h k hmem (by simpa using hf)
  · intro h k hk
    rw [List.mem_reverse, List.mem_range] at hk
    simpa using h k hk

/-- Claim C3 (amended): in the built forest, an accepted node that is fully
contained in some other accepted node gets as parent the containing accepted
node that appears last in the canonical sort order (equivalently, at the
greatest index — the nearest preceding container found by the backward
scan); a node contained in no other accepted node is left an orphan with no
parent. -/
theorem c3_parent_assignment (m : FMap) (ign : Bool) (i : Nat)
    (hi : i < (acceptedNodes m ign).length) :
    ((∃ j, j < (acceptedNodes m ign).length ∧ j ≠ i ∧
        fitsIn (nd (acceptedNodes m ign) i) (nd (acceptedNodes m ign) j)) →
      ∃ k, parentIdx (acceptedNodes m ign) i = some k ∧ k < i ∧
        fitsIn (nd (acceptedNodes m ign) i) (nd (acceptedNodes m ign) k) ∧
        ∀ j, j < (acceptedNodes m ign).length → j ≠ i →
          fitsIn (nd (acceptedNodes m ign) i) (nd (acceptedNodes m ign) j) →
          j ≤ k) ∧
    ((∀ j, j < (acceptedNodes m ign).length → j ≠ i →
        ¬ fitsIn (nd (acceptedNodes m ign) i) (nd (acceptedNodes m ign) j)) →
      parentIdx (acceptedNodes m ign) i = none) := by
  have hkey := pairwise_keyLE_accepted m ign
  have hgood := pairwise_good_accepted m ign
  constructor
  · rintro ⟨j, hj, hne, hfit⟩
    have hji : j < i := container_lt _ hkey hgood i j hi hj hne hfit
    cases hs : parentIdx (acceptedNodes m ign) i with
    | none =>
      exfalso
      exact (scanBack_eq_none _ _ _).mp hs j hji hfit
    | some k =>
      obtain ⟨hk, hfk, hall⟩ := (scanBack_spec _ _ i k).mp hs
      refine ⟨k, rfl, hk, hfk, ?_⟩
      intro j' hj' hne' hfit'
      have hji' : j' < i := container_lt _ hkey hgood i j' hi hj' hne' hfit'
      by_contra hgt
      exact hall j' (by omega) (by omega) hfit'
  · intro hnone
    exact (scanBack_eq_none _ _ _).mpr
      (fun k hk => hnone k (by omega) (by omega))

/-- Counterexample to C3 as stated: in `c3m`'s forest the zero-size node
`A = [5,5)` (index 3) is contained both in `C = [0,5)` (index 1, size 5) and
in `D = [5,20)` (index 2, size 15); the code assigns `D` — the nearest
preceding container — as parent, although `C` is a strictly smaller
container and also the one appearing first in the canonical sort order. -/
theorem c3_counterexample :
    parentIdx (acceptedNodes c3m false) 3 = some 2 ∧
      fitsIn (nd (acceptedNodes c3m false) 3) (nd (acceptedNodes c3m false) 1) ∧
      (nd (acceptedNodes c3m false) 1).size <
        (nd (acceptedNodes c3m false) 2).size := by
  refine ⟨by decide, by decide, by decide⟩

/-- Witness for C3's amended theorem at `c3m`, node index 3. -/
theorem c3_witness :
    3 < (acceptedNodes c3m false).length ∧
      ∃ k, parentIdx (acceptedNodes c3m false) 3 = some k ∧ k < 3 ∧
        fitsIn (nd (acceptedNodes c3m false) 3) (nd (acceptedNodes c3m false) k) ∧
        ∀ j, j < (acceptedNodes c3m false).length → j ≠ 3 →
          fitsIn (nd (acceptedNodes c3m false) 3)
            (nd (acceptedNodes c3m false) j) → j ≤ k :=
  ⟨by decide, (c3_parent_assignment c3m false 3 (by decide)).1
    ⟨1, by decide, by decide, by decide⟩⟩

end Futility

